import Mathlib

/-!
# Shelly: a verification development for `shell.c`

A shallow embedding of the read / tokenize / dispatch / launch core of the
shell, followed by theorems about it.

Modelling conventions.

* A C string is the list of its characters before the terminating NUL.
* A `char **` value is the list of pointer-sized slots reachable from it; every
  read and write is bounds checked and an access outside the block, or a read
  of a slot that was never written, is a `Fault`.
* Everything the program does to its environment is appended to the `trace` of
  the `World`; everything the environment decides (allocation, `chdir`,
  `fork`, `waitpid`, `execvp`) is read from an `OS` value.
* The `int` counters `bufsize` and `position` of `shelly_split_line` are
  natural numbers: they stay below the number of characters of the line plus
  65.
-/

namespace Shelly

/-- A C string: its characters up to, not including, the terminating NUL. -/
abbrev CStr := List Char

/-- One `char *` cell of an argument vector. -/
inductive Slot where
  | uninit
  | null
  | ptr (s : CStr)
  deriving DecidableEq

/-- Undefined behaviour the model detects. -/
inductive Fault where
  | outOfBounds
  | uninitRead
  | outOfFuel
  deriving DecidableEq

/-- Status reported by `waitpid(pid, &status, WUNTRACED)`. -/
inductive WaitStatus where
  | exited (code : Nat)
  | signaled (sig : Nat)
  | stopped (sig : Nat)
  deriving DecidableEq

/-- Observable actions of the process, in the order they happen. -/
inductive Event where
  | stdout (s : String)
  | stderr (s : String)
  | perror (s : String)
  | readline (prompt : String) (result : Option CStr)
  | add_history (line : CStr)
  | chdir (path : CStr) (ok : Bool)
  | fork (pid : Int)
  | waitpid (pid : Int) (status : WaitStatus)
  | execvp (file : CStr) (argv : List Slot) (ok : Bool)
  deriving DecidableEq

/-- State of the process and of the part of the system it changes. -/
structure World where
  cwd : CStr
  home : Option CStr
  nfork : Nat
  trace : List Event
  deriving DecidableEq

/-- Decisions taken by the operating system. -/
structure OS where
  /-- Whether a request for a block of `n` pointers is granted. -/
  alloc : Nat → Bool
  /-- The directory a path names, seen from a working directory, if `chdir` to it succeeds. -/
  resolve : CStr → CStr → Option CStr
  /-- Return value of the `n`-th call of `fork`. -/
  fork : Nat → Int
  /-- Statuses `waitpid` reports, in order, for the child made by the `n`-th `fork`. -/
  childStatuses : Nat → List WaitStatus
  /-- Whether `execvp` of this file with this argument vector succeeds. -/
  execvp : CStr → List Slot → Bool

/-- How a call ends. -/
inductive Outcome (α : Type) where
  /-- The function returned `v`. -/
  | ret (v : α) (w : World)
  /-- The process ended through `exit(code)`. -/
  | terminated (code : Nat) (w : World)
  /-- The process image was replaced by `execvp`. -/
  | execed (file : CStr) (argv : List Slot) (w : World)
  /-- The call waits forever for the environment. -/
  | blocked (w : World)
  /-- Undefined behaviour. -/
  | fault (f : Fault) (w : World)
  deriving DecidableEq

/-- Sequencing of calls. -/
def Outcome.bind {α β : Type} (o : Outcome α) (k : α → World → Outcome β) : Outcome β :=
  match o with
  | .ret v w => k v w
  | .terminated c w => .terminated c w
  | .execed f a w => .execed f a w
  | .blocked w => .blocked w
  | .fault f w => .fault f w

/-- The state in which a call ends. -/
def Outcome.world {α : Type} : Outcome α → World
  | .ret _ w => w
  | .terminated _ w => w
  | .execed _ _ w => w
  | .blocked w => w
  | .fault _ w => w

/-- Append an event to the trace. -/
def World.log (w : World) (e : Event) : World :=
  { w with trace := w.trace ++ [e] }

def EXIT_FAILURE : Nat := 1

/-- Read `a[i]`. -/
def load (a : List Slot) (i : Nat) : Except Fault Slot :=
  match a.get? i with
  | none => .error .outOfBounds
  | some .uninit => .error .uninitRead
  | some s => .ok s

/-- Write `a[i] = v`. -/
def store (a : List Slot) (i : Nat) (v : Slot) : Except Fault (List Slot) :=
  if i < a.length then .ok (a.set i v) else .error .outOfBounds

/-- A fresh block of `n` pointers. -/
def malloc (n : Nat) : List Slot :=
  List.replicate n Slot.uninit

/-- The block resized to `n` pointers, old contents kept. -/
def realloc (a : List Slot) (n : Nat) : List Slot :=
  a.take n ++ List.replicate (n - a.length) Slot.uninit

/-! ## Tokenizer -/

def SHELLY_TOK_BUFSIZE : Nat := 64

/-- The string `" \t\r\n\a"`. -/
def SHELLY_TOK_DELIM : CStr := [' ', '\t', '\r', '\n', '\x07']

/-- One call of `strtok` on the text starting at the saved pointer `s`:
skip the leading delimiters; at the end of the string return no token;
otherwise the token runs to the next delimiter, which is overwritten by NUL,
and the saved pointer moves just past it. Returns the token and the new saved
pointer. -/
def strtok (s : CStr) (delim : CStr) : Option CStr × CStr :=
  match s.dropWhile (fun c => decide (c ∈ delim)) with
  | [] => (none, [])
  | c :: cs =>
    (some ((c :: cs).takeWhile (fun c => !decide (c ∈ delim))),
      ((c :: cs).dropWhile (fun c => !decide (c ∈ delim))).drop 1)

/-- Local variables of `shelly_split_line` at the loop head. -/
structure SplitState where
  bufsize : Nat
  position : Nat
  tokens : List Slot
  token : Option CStr
  /-- The saved pointer of `strtok`. -/
  save : CStr
  deriving DecidableEq

/-- Body of the `while (token != NULL)` loop, entered with `token = t`. -/
def split_body (os : OS) (w : World) (s : SplitState) (t : CStr) : Outcome SplitState :=
  match store s.tokens s.position (.ptr t) with
  | .error f => .fault f w
  | .ok tokens =>
    let position := s.position + 1
    let next := strtok s.save SHELLY_TOK_DELIM
    if position ≥ s.bufsize then
      let bufsize := s.bufsize + SHELLY_TOK_BUFSIZE
      if os.alloc bufsize then
        .ret ⟨bufsize, position, realloc tokens bufsize, next.1, next.2⟩ w
      else
        .terminated EXIT_FAILURE (w.log (.stderr "shelly: allocation error\n"))
    else
      .ret ⟨s.bufsize, position, tokens, next.1, next.2⟩ w

/-- The `while (token != NULL)` loop and the two statements after it. -/
def split_loop (os : OS) : Nat → World → SplitState → Outcome (List Slot)
  | 0, w, _ => .fault .outOfFuel w
  | fuel + 1, w, s =>
    match s.token with
    | none =>
      match store s.tokens s.position .null with
      | .error f => .fault f w
      | .ok tokens => .ret tokens w
    | some t => (split_body os w s t).bind (fun s1 w1 => split_loop os fuel w1 s1)

/-- State at the first test of the loop condition. -/
def split_init (line : CStr) : SplitState :=
  let first := strtok line SHELLY_TOK_DELIM
  ⟨SHELLY_TOK_BUFSIZE, 0, malloc SHELLY_TOK_BUFSIZE, first.1, first.2⟩

/-- Model of `shelly_split_line`. Each iteration removes at least one character
from the text left to scan, so `line.length + 1` iterations are enough. -/
def shelly_split_line (os : OS) (w : World) (line : CStr) : Outcome (List Slot) :=
  if os.alloc SHELLY_TOK_BUFSIZE then
    split_loop os (line.length + 1) w (split_init line)
  else
    .terminated EXIT_FAILURE (w.log (.stderr "shelly: allocation error\n"))

/-- The token list an argument vector denotes: the strings before the first
NULL. There is none when the end of the block or a slot never written comes
first. -/
def readArgv : List Slot → Option (List CStr)
  | [] => none
  | .uninit :: _ => none
  | .null :: _ => some []
  | .ptr s :: rest => (readArgv rest).map (fun ts => s :: ts)

/-- The NULL-terminated argument vector of a token list, followed by whatever
else the block holds. -/
def mkArgv (ts : List CStr) (junk : List Slot) : List Slot :=
  ts.map Slot.ptr ++ Slot.null :: junk

/-- The token block when the tokens `done` have been stored in a block of
`bufsize` pointers. -/
def layout (done : List CStr) (bufsize : Nat) : List Slot :=
  done.map Slot.ptr ++ List.replicate (bufsize - done.length) Slot.uninit

/-- Loop invariant of `shelly_split_line`, `done` being the tokens stored so far. -/
def SplitInv (s : SplitState) (done : List CStr) : Prop :=
  s.position = done.length ∧ s.position < s.bufsize ∧
    s.bufsize = SHELLY_TOK_BUFSIZE * (done.length / SHELLY_TOK_BUFSIZE + 1) ∧
    s.tokens = layout done s.bufsize

/-- The block `shelly_split_line` returns for the tokens `ts`. -/
def finalBlock (ts : List CStr) : List Slot :=
  mkArgv ts (List.replicate (SHELLY_TOK_BUFSIZE * (ts.length / SHELLY_TOK_BUFSIZE + 1) - ts.length - 1)
    Slot.uninit)

/-- The delimiters as the specification lists them: space, tab, carriage
return, newline and bell. -/
def isDelimiter (c : Char) : Bool :=
  c = ' ' || c = '\t' || c = '\r' || c = '\n' || c = '\x07'

/-- Specification of the tokenizer: cut the line at every delimiter and drop
the empty pieces, which leaves the maximal runs of non-delimiter characters in
left-to-right order. -/
def maximalRuns (line : CStr) : List CStr :=
  (line.splitOnP isDelimiter).filter (fun t => !t.isEmpty)

/-- The sentence "the tokens `ts` are, left to right, the maximal runs of
non-delimiter characters of the line": the line is a stretch of delimiters,
then the first token, which is not empty, holds no delimiter and is followed
by the end of the line or by a delimiter, and the rest of the line has the
remaining tokens as its maximal runs. -/
inductive Runs : CStr → List CStr → Prop where
  | nil (ds : CStr) : (∀ c ∈ ds, isDelimiter c = true) → Runs ds []
  | cons (ds t rest : CStr) (ts : List CStr) :
      (∀ c ∈ ds, isDelimiter c = true) → t ≠ [] → (∀ c ∈ t, isDelimiter c = false) →
      (∀ c ∈ rest.head?, isDelimiter c = true) → Runs rest ts →
      Runs (ds ++ t ++ rest) (t :: ts)

/-- The tokens `shelly_split_line` has still to store at the loop head. -/
def pendingTokens (s : SplitState) : List CStr :=
  match s.token with
  | none => []
  | some t => t :: maximalRuns s.save

/-- An operating system used to instantiate the theorems: it grants every
allocation, resolves every path to itself, makes child 5 at every `fork` and
reports it stopped once and then exited with status 0. -/
def sampleOS : OS :=
  ⟨fun _ => true, fun _ p => some p, fun _ => 5, fun _ => [.stopped 19, .exited 0],
    fun _ _ => true⟩

/-- A state used to instantiate the theorems: working directory `/`, `HOME=/tmp`. -/
def sampleWorld : World :=
  ⟨['/'], some ['/', 't', 'm', 'p'], 0, []⟩

/-- The line `echo  hello   world`. -/
def echoLine : CStr :=
  ['e', 'c', 'h', 'o', ' ', ' ', 'h', 'e', 'l', 'l', 'o', ' ', ' ', ' ', 'w', 'o', 'r', 'l', 'd']

/-- A line of `n` one-letter tokens. -/
def lineOfTokens (n : Nat) : CStr :=
  (List.replicate n ['a', ' ']).flatten

/-- States the loop head of `shelly_split_line` goes through on `line`. -/
inductive SplitReach (os : OS) (w : World) (line : CStr) : SplitState → Prop where
  | init : SplitReach os w line (split_init line)
  | step (s s1 : SplitState) (t : CStr) (w1 : World) :
      SplitReach os w line s → s.token = some t → split_body os w s t = .ret s1 w1 →
      SplitReach os w line s1

/-! ## String comparison -/

/-- Sign of `strcmp(a, b)`. -/
def strcmp : CStr → CStr → Int
  | [], [] => 0
  | [], _ :: _ => -1
  | _ :: _, [] => 1
  | a :: as, b :: bs =>
    if a = b then strcmp as bs else if a.toNat < b.toNat then -1 else 1

/-- Sign of `strncmp(a, b, n)`. -/
def strncmp : CStr → CStr → Nat → Int
  | _, _, 0 => 0
  | [], [], _ + 1 => 0
  | [], _ :: _, _ + 1 => -1
  | _ :: _, [], _ + 1 => 1
  | a :: as, b :: bs, n + 1 =>
    if a = b then strncmp as bs n else if a.toNat < b.toNat then -1 else 1

/-- Result of `strlen`. -/
def strlen (s : CStr) : Nat := s.length

/-! ## Builtin registry -/

/-- The array `builtin_str`: four pointers, no terminating NULL. -/
def builtin_str : List Slot :=
  [.ptr ['c', 'd'], .ptr ['h', 'e', 'l', 'p'], .ptr ['e', 'x', 'i', 't'],
    .ptr ['h', 'e', 'l', 'l', 'o']]

/-- Model of `shelly_num_builtins`: `sizeof(builtin_str) / sizeof(char *)`. -/
def shelly_num_builtins : Nat := builtin_str.length

/-- Model of the system call `chdir`: result and new state. -/
def chdir (os : OS) (w : World) (path : CStr) : Int × World :=
  match os.resolve w.cwd path with
  | some d => (0, { w with cwd := d }.log (.chdir path true))
  | none => (-1, w.log (.chdir path false))

/-- Model of `shelly_cd`. -/
def shelly_cd (os : OS) (w : World) (args : List Slot) : Outcome Int :=
  match load args 1 with
  | .error f => .fault f w
  | .ok .null =>
    match w.home with
    | some home =>
      let r := chdir os w home
      if r.1 ≠ 0 then .ret 1 (r.2.log (.perror "shelly")) else .ret 1 r.2
    | none => .ret 1 (w.log (.stderr "shelly: HOME environment variable not set\n"))
  | .ok (.ptr dir) =>
    let r := chdir os w dir
    if r.1 ≠ 0 then .ret 1 (r.2.log (.perror "shelly")) else .ret 1 r.2
  | .ok .uninit => .fault .uninitRead w

/-- The directory-change target of `cd` as the specification words it: token 1
when present, otherwise the value of `HOME`. -/
def cdTarget (ts : List CStr) (w : World) : Option CStr :=
  match ts.get? 1 with
  | some dir => some dir
  | none => w.home

/-- The `for` loop of `shelly_help`, with `k` iterations left from index `i`. -/
def help_loop : Nat → Nat → World → Outcome Unit
  | 0, _, w => .ret () w
  | k + 1, i, w =>
    match load builtin_str i with
    | .ok (.ptr name) => help_loop k (i + 1) (w.log (.stdout ("  " ++ String.mk name ++ "\n")))
    | .ok _ => .fault .uninitRead w
    | .error f => .fault f w

/-- Model of `shelly_help`. -/
def shelly_help (_os : OS) (w : World) (_args : List Slot) : Outcome Int :=
  let w1 := w.log (.stdout "This is a basic shell program, with basic functionality.\n")
  let w2 := w1.log (.stdout "Type program names and arguments, and hit enter.\n")
  let w3 := w2.log (.stdout "Autocomplete is also built in!\n")
  let w4 := w3.log (.stdout "Partially type in command/arguement and hit the tab key.\n")
  let w5 := w4.log (.stdout "These are the current commands built in:\n")
  (help_loop shelly_num_builtins 0 w5).bind (fun _ w6 => .ret 1 (w6.log (.stdout "\n")))

/-- Model of `shelly_exit`. -/
def shelly_exit (_os : OS) (w : World) (_args : List Slot) : Outcome Int :=
  .ret 0 (w.log (.stdout "Bye now! See you soon!\n"))

/-- Model of `shelly_hello`. -/
def shelly_hello (_os : OS) (w : World) (_args : List Slot) : Outcome Int :=
  .ret 1 (w.log (.stdout "Hi! Hope you enjoy this shell.\n"))

/-- The array `builtin_func`. -/
def builtin_func : List (OS → World → List Slot → Outcome Int) :=
  [shelly_cd, shelly_help, shelly_exit, shelly_hello]

/-! ## Process launcher -/

def WIFEXITED : WaitStatus → Bool
  | .exited _ => true
  | _ => false

def WIFSIGNALED : WaitStatus → Bool
  | .signaled _ => true
  | _ => false

/-- The `do ... while` loop of `shelly_launch`; the list holds the statuses
`waitpid` will report for the child. When they run out the parent stays
blocked in `waitpid`. -/
def wait_loop (pid : Int) : List WaitStatus → World → Outcome Unit
  | [], w => .blocked w
  | status :: later, w =>
    let w1 := w.log (.waitpid pid status)
    if !WIFEXITED status && !WIFSIGNALED status then wait_loop pid later w1
    else .ret () w1

/-- Model of `shelly_launch`, in whichever process `fork` returns. -/
def shelly_launch (os : OS) (w : World) (args : List Slot) : Outcome Int :=
  let pid := os.fork w.nfork
  let w1 := { w with nfork := w.nfork + 1 }.log (.fork pid)
  if pid = 0 then
    match load args 0 with
    | .error f => .fault f w1
    | .ok (.ptr file) =>
      if os.execvp file args then .execed file args (w1.log (.execvp file args true))
      else .terminated EXIT_FAILURE ((w1.log (.execvp file args false)).log (.perror "shelly"))
    | .ok _ => .terminated EXIT_FAILURE ((w1.log (.execvp [] args false)).log (.perror "shelly"))
  else if pid < 0 then
    .ret 1 (w1.log (.perror "shelly"))
  else
    (wait_loop pid (os.childStatuses w.nfork) w1).bind (fun _ w2 => .ret 1 w2)

/-! ## Dispatcher -/

/-- The `for` loop of `shelly_execute` and the call after it, with `k`
iterations left from index `i`; `a0` is the string `args[0]`. -/
def execute_loop (os : OS) (w : World) (args : List Slot) (a0 : CStr) :
    Nat → Nat → Outcome Int
  | 0, _ => shelly_launch os w args
  | k + 1, i =>
    match load builtin_str i with
    | .ok (.ptr name) =>
      if strcmp a0 name = 0 then
        match builtin_func.get? i with
        | some handler => handler os w args
        | none => .fault .outOfBounds w
      else execute_loop os w args a0 k (i + 1)
    | .ok _ => .fault .uninitRead w
    | .error f => .fault f w

/-- Model of `shelly_execute`. -/
def shelly_execute (os : OS) (w : World) (args : List Slot) : Outcome Int :=
  match load args 0 with
  | .error f => .fault f w
  | .ok .null => .ret 1 w
  | .ok (.ptr a0) => execute_loop os w args a0 shelly_num_builtins 0
  | .ok .uninit => .fault .uninitRead w

/-! ## Shell loop -/

/-- Model of `shelly_read_line`; `r` is what `readline` returns. -/
def shelly_read_line (w : World) (r : Option CStr) : Option CStr × World :=
  let w1 := w.log (.readline "☀> " r)
  match r with
  | some (c :: cs) => (r, w1.log (.add_history (c :: cs)))
  | _ => (r, w1)

/-- One pass through the body of the `do ... while` loop of `shelly_loop`,
giving `status`. -/
def loop_body (os : OS) (w : World) (r : Option CStr) : Outcome Int :=
  let rd := shelly_read_line w r
  match rd.1 with
  | none => .terminated 0 (rd.2.log (.stdout "\n"))
  | some line =>
    (shelly_split_line os rd.2 line).bind (fun args w2 => shelly_execute os w2 args)

/-- Model of `shelly_loop`; the list holds what the successive calls of
`readline` return. When it runs out the shell stays blocked in `readline`.
The two assignments to the variables of the readline library that come before
the loop change nothing the model holds. -/
def shelly_loop (os : OS) : World → List (Option CStr) → Outcome Unit
  | w, [] => .blocked w
  | w, r :: later =>
    (loop_body os w r).bind (fun status w1 =>
      if status ≠ 0 then shelly_loop os w1 later else .ret () w1)

/-- The sentence "the lines `ls` are read, tokenized and dispatched in the
order given, each dispatch returning a non-zero status, and that takes the
state from `w` to the given state": for the first line, `shelly_read_line`
reads it, `shelly_split_line` turns it into the vector `args`, `shelly_execute`
on `args` returns a non-zero status, and the same holds for the lines after
it from the state so reached. -/
inductive Iterates (os : OS) : World → List CStr → World → Prop where
  | nil (w : World) : Iterates os w [] w
  | cons (w wa w1 w2 : World) (l : CStr) (ls : List CStr) (args : List Slot) (status : Int) :
      shelly_split_line os (shelly_read_line w (some l)).2 l = .ret args wa →
      shelly_execute os wa args = .ret status w1 → status ≠ 0 →
      Iterates os w1 ls w2 → Iterates os w (l :: ls) w2

/-- The results of the calls of `readline` a trace records, in order. -/
def readsOf (tr : List Event) : List (Option CStr) :=
  tr.filterMap (fun e =>
    match e with
    | .readline _ r => some r
    | _ => none)

/-! ## Completion -/

/-- The static variables of `command_generator`. -/
structure GenState where
  list_index : Nat
  len : Nat
  deriving DecidableEq

/-- The `while` loop of `command_generator` from `list_index = i`, with at most
`k` iterations. Every iteration that does not leave the loop moves one slot on
and the read past the last slot of `builtin_str` is a fault, so one iteration
more than there are slots from `i` on is enough. -/
def generator_loop (text : CStr) (len : Nat) : Nat → Nat → Except Fault (Option CStr × Nat)
  | 0, _ => .error .outOfFuel
  | k + 1, i =>
    match load builtin_str i with
    | .error f => .error f
    | .ok (.ptr name) =>
      if strncmp name text len = 0 then .ok (some name, i + 1)
      else generator_loop text len k (i + 1)
    | .ok _ => .ok (none, i)

/-- Model of `command_generator`: the candidate, or NULL, and the new statics. -/
def command_generator (st : GenState) (text : CStr) (state : Int) :
    Except Fault (Option CStr × GenState) :=
  let st1 : GenState := if state = 0 then ⟨0, strlen text⟩ else st
  match generator_loop text st1.len (builtin_str.length - st1.list_index + 1) st1.list_index with
  | .error f => .error f
  | .ok (name, i) => .ok (name, ⟨i, st1.len⟩)

/-- How `rl_completion_matches` of the readline library drives the generator:
it calls it with `state` 0, then with the number of candidates found so far,
which is not 0, until it returns NULL. Gives the candidates in the order found
and the fault that cut the enumeration short, if any. -/
def completion_matches (text : CStr) : Nat → GenState → List CStr → List CStr × Option Fault
  | 0, _, found => (found, some .outOfFuel)
  | k + 1, st, found =>
    match command_generator st text (found.length : Int) with
    | .error f => (found, some f)
    | .ok (none, _) => (found, none)
    | .ok (some name, st1) => completion_matches text k st1 (found ++ [name])

/-- Model of `shelly_command_completion`; `none` is the NULL result. The
statics of the generator hold `st` on entry. -/
def shelly_command_completion (st : GenState) (text : CStr) (start _end : Int) :
    Option (List CStr × Option Fault) :=
  if start = 0 then some (completion_matches text (builtin_str.length + 2) st [])
  else none

/-- The strings the slots of a table point to. -/
def slotNames : List Slot → List CStr
  | [] => []
  | .ptr s :: rest => s :: slotNames rest
  | _ :: rest => slotNames rest

/-! ## Lemmas: `strtok` and the maximal runs -/

theorem mem_delim (c : Char) : decide (c ∈ SHELLY_TOK_DELIM) = isDelimiter c := by
  simp [SHELLY_TOK_DELIM, isDelimiter, Bool.or_assoc]

theorem strtok_eq (s : CStr) :
    strtok s SHELLY_TOK_DELIM =
      match s.dropWhile isDelimiter with
      | [] => (none, [])
      | c :: cs =>
        (some ((c :: cs).takeWhile (fun c => !isDelimiter c)),
          ((c :: cs).dropWhile (fun c => !isDelimiter c)).drop 1) := by
  simp only [strtok, mem_delim]

theorem splitOnP_unfold (p : Char → Bool) (xs : CStr) :
    xs.splitOnP p = xs.takeWhile (fun c => !p c) ::
      (match xs.dropWhile (fun c => !p c) with
        | [] => []
        | _ :: r => r.splitOnP p) := by
  induction xs with
  | nil => simp
  | cons x xs ih =>
    rw [List.splitOnP_cons]
    by_cases h : p x = true
    · simp [h]
    · simp only [Bool.not_eq_true] at h
      rw [ih]
      simp [h, List.modifyHead]

theorem maximalRuns_cons_delim (d : Char) (s : CStr) (h : isDelimiter d = true) :
    maximalRuns (d :: s) = maximalRuns s := by
  simp [maximalRuns, List.splitOnP_cons, h]

theorem maximalRuns_dropWhile (s : CStr) :
    maximalRuns (s.dropWhile isDelimiter) = maximalRuns s := by
  induction s with
  | nil => rfl
  | cons d s ih =>
    by_cases h : isDelimiter d = true
    · rw [List.dropWhile_cons_of_pos h, ih, maximalRuns_cons_delim d s h]
    · rw [List.dropWhile_cons_of_neg h]

theorem maximalRuns_nil : maximalRuns [] = [] := by
  simp [maximalRuns]

theorem maximalRuns_strtok (s : CStr) :
    maximalRuns s =
      match strtok s SHELLY_TOK_DELIM with
      | (none, _) => []
      | (some t, s1) => t :: maximalRuns s1 := by
  rw [strtok_eq, ← maximalRuns_dropWhile s]
  have hd := List.head?_dropWhile_not isDelimiter s
  cases hs : s.dropWhile isDelimiter with
  | nil => simp [maximalRuns_nil]
  | cons c cs =>
    rw [hs] at hd
    simp only [List.head?_cons] at hd
    simp only
    conv_lhs => rw [maximalRuns, splitOnP_unfold]
    rw [List.filter_cons_of_pos (by simp [hd])]
    congr 1
    cases hr : (c :: cs).dropWhile (fun c => !isDelimiter c) with
    | nil => simp [maximalRuns_nil]
    | cons e r => simp [maximalRuns]

theorem strtok_some (s t s1 : CStr) (h : strtok s SHELLY_TOK_DELIM = (some t, s1)) :
    s1.length < s.length ∧ t ≠ [] ∧ ∀ c ∈ t, isDelimiter c = false := by
  rw [strtok_eq] at h
  have hd := List.head?_dropWhile_not isDelimiter s
  have hlen : (s.dropWhile isDelimiter).length ≤ s.length :=
    (List.dropWhile_sublist _).length_le
  cases hs : s.dropWhile isDelimiter with
  | nil => rw [hs] at h; simp at h
  | cons c cs =>
    rw [hs] at h hd hlen
    simp only [List.head?_cons] at hd
    simp only [Prod.mk.injEq, Option.some.injEq] at h
    obtain ⟨ht, hs1⟩ := h
    refine ⟨?_, ?_, ?_⟩
    · rw [← hs1, List.length_drop]
      have h2 : ((c :: cs).dropWhile (fun c => !isDelimiter c)).length ≤ (c :: cs).length :=
        (List.dropWhile_sublist _).length_le
      simp only [List.length_cons] at h2 hlen
      omega
    · rw [← ht, List.takeWhile_cons_of_pos (by simp [hd])]
      simp
    · intro x hx
      rw [← ht] at hx
      simpa using List.mem_takeWhile_imp hx

/-! ## Lemmas: the loop of `shelly_split_line` -/

theorem set_layout (done : List CStr) (k : Nat) (v : Slot) :
    (done.map Slot.ptr ++ List.replicate (k + 1) Slot.uninit).set done.length v =
      done.map Slot.ptr ++ v :: List.replicate k Slot.uninit := by
  induction done with
  | nil => simp [List.replicate_succ]
  | cons d done ih => simpa using ih

theorem layout_length (done : List CStr) (n : Nat) (h : done.length ≤ n) :
    (layout done n).length = n := by
  simp [layout]; omega

theorem store_layout (done : List CStr) (n : Nat) (v : Slot) (h : done.length < n) :
    store (layout done n) done.length v =
      .ok (done.map Slot.ptr ++ v :: List.replicate (n - done.length - 1) Slot.uninit) := by
  have hl := layout_length done n (by omega)
  rw [store, if_pos (by omega)]
  obtain ⟨k, rfl⟩ : ∃ k, n = done.length + (k + 1) := ⟨n - done.length - 1, by omega⟩
  have h1 : done.length + (k + 1) - done.length = k + 1 := by omega
  rw [layout, h1, set_layout, Nat.add_sub_cancel]

theorem realloc_grow (a : List Slot) (n : Nat) (h : a.length ≤ n) :
    realloc a n = a ++ List.replicate (n - a.length) Slot.uninit := by
  rw [realloc, List.take_of_length_le h]

theorem split_body_inv (os : OS) (halloc : ∀ n, os.alloc n = true) (w : World)
    (s : SplitState) (done : List CStr) (t : CStr) (hinv : SplitInv s done) :
    ∃ s1, split_body os w s t = .ret s1 w ∧ SplitInv s1 (done ++ [t]) ∧
      s1.token = (strtok s.save SHELLY_TOK_DELIM).1 ∧
      s1.save = (strtok s.save SHELLY_TOK_DELIM).2 := by
  obtain ⟨hpos, hlt, hbuf, htok⟩ := hinv
  have hst := store_layout done s.bufsize (.ptr t) (by omega)
  simp only [SHELLY_TOK_BUFSIZE] at hbuf
  unfold split_body
  rw [htok, hpos, hst]
  simp only [halloc, if_true, SHELLY_TOK_BUFSIZE]
  by_cases hge : done.length + 1 ≥ s.bufsize
  · rw [if_pos hge]
    refine ⟨_, rfl, ?_, rfl, rfl⟩
    have hb : s.bufsize = done.length + 1 := by omega
    refine ⟨by simp, by simp; omega, by simp [SHELLY_TOK_BUFSIZE]; omega, ?_⟩
    have h0 : s.bufsize - done.length - 1 = 0 := by omega
    have h1 : s.bufsize + 64 - (done.length + 1) = 64 := by omega
    have h2 : s.bufsize + 64 - (done ++ [t]).length = 64 := by simp; omega
    rw [h0, List.replicate_zero, realloc_grow _ _ (by simp; omega)]
    simp only [layout, h2, List.map_append, List.map_cons, List.map_nil, List.length_append,
      List.length_map, List.length_cons, List.length_nil, h1, List.append_assoc,
      List.singleton_append]
  · rw [if_neg hge]
    refine ⟨_, rfl, ?_, rfl, rfl⟩
    refine ⟨by simp, by simp; omega, by simp [SHELLY_TOK_BUFSIZE]; omega, ?_⟩
    have h2 : s.bufsize - (done ++ [t]).length = s.bufsize - done.length - 1 := by simp; omega
    simp only [layout, h2, List.map_append, List.map_cons, List.map_nil, List.append_assoc,
      List.singleton_append]

theorem split_loop_result (os : OS) (halloc : ∀ n, os.alloc n = true) (w : World) :
    ∀ (fuel : Nat) (s : SplitState) (done : List CStr), SplitInv s done →
      (match s.token with
        | none => 1 ≤ fuel
        | some _ => s.save.length + 2 ≤ fuel) →
      split_loop os fuel w s = .ret (finalBlock (done ++
        (match s.token with
          | none => []
          | some t => t :: maximalRuns s.save))) w := by
  intro fuel
  induction fuel with
  | zero =>
    intro s done _ hf
    cases htk : s.token <;> rw [htk] at hf <;> simp at hf
  | succ fuel ih =>
    intro s done hinv hf
    cases htk : s.token with
    | none =>
      obtain ⟨hpos, hlt, hbuf, htok⟩ := hinv
      simp only [split_loop, htk, List.append_nil]
      rw [htok, hpos, store_layout done s.bufsize .null (by omega)]
      simp only [finalBlock, mkArgv, ← hbuf]
    | some t =>
      rw [htk] at hf
      simp only at hf
      obtain ⟨s1, hbody, hinv1, htoken1, hsave1⟩ := split_body_inv os halloc w s done t hinv
      simp only [split_loop, htk, hbody, Outcome.bind]
      rw [ih s1 (done ++ [t]) hinv1, maximalRuns_strtok s.save]
      · rcases hst : strtok s.save SHELLY_TOK_DELIM with ⟨_ | t1, sv⟩
        · rw [hst] at htoken1 hsave1
          simp [htoken1]
        · rw [hst] at htoken1 hsave1
          simp at htoken1 hsave1
          simp [htoken1, hsave1]
      · rcases hst : strtok s.save SHELLY_TOK_DELIM with ⟨_ | t1, sv⟩
        · rw [hst] at htoken1
          simp only at htoken1
          rw [htoken1]
          simp only
          omega
        · have hlen := (strtok_some s.save t1 sv hst).1
          rw [hst] at htoken1 hsave1
          simp only at htoken1 hsave1
          rw [htoken1, hsave1]
          simp only
          omega

theorem split_init_inv (line : CStr) : SplitInv (split_init line) [] := by
  simp [SplitInv, split_init, SHELLY_TOK_BUFSIZE, layout, malloc]

theorem split_line_result (os : OS) (halloc : ∀ n, os.alloc n = true) (w : World) (line : CStr) :
    shelly_split_line os w line = .ret (finalBlock (maximalRuns line)) w := by
  rw [shelly_split_line, if_pos (halloc _),
    split_loop_result os halloc w _ _ [] (split_init_inv line)]
  · rw [maximalRuns_strtok line]
    rcases hst : strtok line SHELLY_TOK_DELIM with ⟨_ | t1, sv⟩ <;> simp [split_init, hst]
  · rcases hst : strtok line SHELLY_TOK_DELIM with ⟨_ | t1, sv⟩
    · simp [split_init, hst]
    · have hlen := (strtok_some line t1 sv hst).1
      simp [split_init, hst]
      omega

/-! ## Lemmas: the runs of a line -/

theorem readArgv_mkArgv (ts : List CStr) (junk : List Slot) :
    readArgv (mkArgv ts junk) = some ts := by
  induction ts with
  | nil => rfl
  | cons t ts ih =>
    show (readArgv (mkArgv ts junk)).map (fun ts => t :: ts) = some (t :: ts)
    rw [ih]
    rfl

theorem maximalRuns_all_delim (ds : CStr) (h : ∀ c ∈ ds, isDelimiter c = true) :
    maximalRuns ds = [] := by
  induction ds with
  | nil => exact maximalRuns_nil
  | cons d ds ih =>
    rw [maximalRuns_cons_delim d ds (h d (List.mem_cons_self _ _))]
    exact ih (fun c hc => h c (List.mem_cons_of_mem _ hc))

theorem maximalRuns_append_delim (ds s : CStr) (h : ∀ c ∈ ds, isDelimiter c = true) :
    maximalRuns (ds ++ s) = maximalRuns s := by
  induction ds with
  | nil => rfl
  | cons d ds ih =>
    rw [List.cons_append, maximalRuns_cons_delim d _ (h d (List.mem_cons_self _ _))]
    exact ih (fun c hc => h c (List.mem_cons_of_mem _ hc))

theorem maximalRuns_token (t rest : CStr) (ht : t ≠ [])
    (htn : ∀ c ∈ t, isDelimiter c = false) (hrest : ∀ c ∈ rest.head?, isDelimiter c = true) :
    maximalRuns (t ++ rest) = t :: maximalRuns rest := by
  have htake : (t ++ rest).takeWhile (fun c => !isDelimiter c) = t := by
    rw [List.takeWhile_append_of_pos (by simpa using htn)]
    cases rest with
    | nil => simp
    | cons e r =>
      have he : isDelimiter e = true := hrest e (by simp)
      simp [he]
  have hdrop : (t ++ rest).dropWhile (fun c => !isDelimiter c) = rest := by
    rw [List.dropWhile_append_of_pos (by simpa using htn)]
    cases rest with
    | nil => simp
    | cons e r =>
      have he : isDelimiter e = true := hrest e (by simp)
      simp [he]
  rw [maximalRuns, splitOnP_unfold, htake, hdrop]
  rw [List.filter_cons_of_pos (by cases t <;> simp_all)]
  congr 1
  cases rest with
  | nil => simp [maximalRuns_nil]
  | cons e r =>
    have he : isDelimiter e = true := hrest e (by simp)
    rw [maximalRuns_cons_delim e r he]
    rfl

theorem runs_unique (line : CStr) (ts : List CStr) (h : Runs line ts) :
    maximalRuns line = ts := by
  induction h with
  | nil ds hds => exact maximalRuns_all_delim ds hds
  | cons ds t rest ts hds ht htn hrest _ ih =>
    rw [List.append_assoc, maximalRuns_append_delim ds _ hds,
      maximalRuns_token t rest ht htn hrest, ih]

theorem runs_maximalRuns (n : Nat) : ∀ line : CStr, line.length ≤ n → Runs line (maximalRuns line) := by
  induction n with
  | zero =>
    intro line hl
    have : line = [] := List.length_eq_zero.mp (Nat.le_zero.mp hl)
    subst this
    rw [maximalRuns_nil]
    exact Runs.nil [] (by simp)
  | succ n ih =>
    intro line hl
    have hsplit : line = line.takeWhile isDelimiter ++ line.dropWhile isDelimiter :=
      (List.takeWhile_append_dropWhile _ _).symm
    have hds : ∀ c ∈ line.takeWhile isDelimiter, isDelimiter c = true :=
      fun c hc => List.mem_takeWhile_imp hc
    have hhead := List.head?_dropWhile_not isDelimiter line
    cases hl1 : line.dropWhile isDelimiter with
    | nil =>
      rw [hl1, List.append_nil] at hsplit
      rw [hsplit, maximalRuns_all_delim _ hds]
      exact Runs.nil _ hds
    | cons c cs =>
      rw [hl1] at hhead hsplit
      simp only [List.head?_cons] at hhead
      have hsplit2 : c :: cs = (c :: cs).takeWhile (fun c => !isDelimiter c) ++
          (c :: cs).dropWhile (fun c => !isDelimiter c) :=
        (List.takeWhile_append_dropWhile _ _).symm
      have htn : ∀ x ∈ (c :: cs).takeWhile (fun c => !isDelimiter c), isDelimiter x = false :=
        fun x hx => by simpa using List.mem_takeWhile_imp hx
      have ht : (c :: cs).takeWhile (fun c => !isDelimiter c) ≠ [] := by
        rw [List.takeWhile_cons_of_pos (by simp [hhead])]
        simp
      have hrest : ∀ x ∈ ((c :: cs).dropWhile (fun c => !isDelimiter c)).head?,
          isDelimiter x = true := by
        intro x hx
        have h2 := List.head?_dropWhile_not (fun c => !isDelimiter c) (c :: cs)
        rw [Option.mem_def.mp hx] at h2
        simpa using h2
      have hlen : ((c :: cs).dropWhile (fun c => !isDelimiter c)).length ≤ n := by
        have h1 : (line.takeWhile isDelimiter ++ c :: cs).length ≤ n + 1 := by rw [← hsplit]; exact hl
        have h2 := congrArg List.length hsplit2
        have h3 := List.length_pos.mpr ht
        simp only [List.length_append, List.length_cons] at h1 h2
        omega
      have hr := ih _ hlen
      have key := Runs.cons _ _ _ _ hds ht htn hrest hr
      rw [List.append_assoc, ← hsplit2, ← hsplit] at key
      have hu := runs_unique _ _ key
      rw [hu]
      exact key

theorem maximalRuns_clean (line : CStr) :
    ∀ t ∈ maximalRuns line, t ≠ [] ∧ ∀ c ∈ t, isDelimiter c = false := by
  have h := runs_maximalRuns line.length line (le_refl _)
  generalize maximalRuns line = ts at h
  induction h with
  | nil ds _ => simp
  | cons ds t rest ts _ ht htn _ _ ih =>
    intro x hx
    rcases List.mem_cons.mp hx with rfl | hx
    · exact ⟨ht, htn⟩
    · exact ih x hx

theorem maximalRuns_join (line : CStr) :
    (maximalRuns line).flatten = line.filter (fun c => !isDelimiter c) := by
  have h := runs_maximalRuns line.length line (le_refl _)
  generalize maximalRuns line = ts at h
  induction h with
  | nil ds hds =>
    simp only [List.flatten_nil]
    exact (List.filter_eq_nil_iff.mpr (fun c hc => by simp [hds c hc])).symm
  | cons ds t rest ts hds _ htn _ _ ih =>
    have h1 : ds.filter (fun c => !isDelimiter c) = [] :=
      List.filter_eq_nil_iff.mpr (fun c hc => by simp [hds c hc])
    have h2 : t.filter (fun c => !isDelimiter c) = t :=
      List.filter_eq_self.mpr (fun c hc => by simp [htn c hc])
    simp only [List.flatten_cons, List.filter_append, h1, h2, ih, List.nil_append]

/-! ## Lemmas: reachable states and the returned block -/

theorem reach_inv (os : OS) (halloc : ∀ n, os.alloc n = true) (w : World) (line : CStr) :
    ∀ s, SplitReach os w line s →
      ∃ done, SplitInv s done ∧ done ++ pendingTokens s = maximalRuns line := by
  intro s hs
  induction hs with
  | init =>
    refine ⟨[], split_init_inv line, ?_⟩
    rw [maximalRuns_strtok line]
    rcases hst : strtok line SHELLY_TOK_DELIM with ⟨_ | t1, sv⟩ <;>
      simp [pendingTokens, split_init, hst]
  | step s s1 t w1 _ htk hbody ih =>
    obtain ⟨done, hinv, hrun⟩ := ih
    obtain ⟨s2, hbody2, hinv2, htoken2, hsave2⟩ := split_body_inv os halloc w s done t hinv
    rw [hbody2] at hbody
    simp only [Outcome.ret.injEq] at hbody
    obtain ⟨rfl, _⟩ := hbody
    refine ⟨done ++ [t], hinv2, ?_⟩
    rw [← hrun]
    have hp : pendingTokens s = t :: maximalRuns s.save := by simp [pendingTokens, htk]
    rw [hp, maximalRuns_strtok s.save]
    rcases hst : strtok s.save SHELLY_TOK_DELIM with ⟨_ | t1, sv⟩
    · rw [hst] at htoken2
      simp [pendingTokens, htoken2]
    · rw [hst] at htoken2 hsave2
      simp at htoken2 hsave2
      simp [pendingTokens, htoken2, hsave2]

theorem maximalRuns_lineOfTokens (n : Nat) : (maximalRuns (lineOfTokens n)).length = n := by
  induction n with
  | zero => simp [lineOfTokens, maximalRuns_nil]
  | succ n ih =>
    have h : lineOfTokens (n + 1) = ['a'] ++ (' ' :: lineOfTokens n) := by
      simp [lineOfTokens, List.replicate_succ]
    rw [h, maximalRuns_token ['a'] _ (by simp) (by decide) (by simp; decide),
      maximalRuns_cons_delim ' ' _ (by decide)]
    simp [ih]

theorem finalBlock_take (ts : List CStr) :
    (finalBlock ts).take ts.length = ts.map Slot.ptr := by
  have h : ts.length = (ts.map Slot.ptr).length := by simp
  rw [finalBlock, mkArgv]
  conv_lhs => rw [h]
  rw [List.take_left]

theorem finalBlock_get (ts : List CStr) : (finalBlock ts).get? ts.length = some Slot.null := by
  rw [finalBlock, mkArgv, List.get?_eq_getElem?, List.getElem?_append_right (by simp)]
  simp

theorem finalBlock_length (ts : List CStr) :
    (finalBlock ts).length = SHELLY_TOK_BUFSIZE * (ts.length / SHELLY_TOK_BUFSIZE + 1) := by
  simp [finalBlock, mkArgv, SHELLY_TOK_BUFSIZE]
  omega

theorem length_le_flatten (ts : List CStr) (h : ∀ t ∈ ts, t ≠ []) :
    ts.length ≤ ts.flatten.length := by
  induction ts with
  | nil => simp
  | cons t ts ih =>
    have h1 := List.length_pos.mpr (h t (List.mem_cons_self _ _))
    have h2 := ih (fun x hx => h x (List.mem_cons_of_mem _ hx))
    simp only [List.flatten_cons, List.length_append, List.length_cons]
    omega

theorem maximalRuns_length_le (line : CStr) : (maximalRuns line).length ≤ line.length := by
  have h1 := length_le_flatten (maximalRuns line) (fun t ht => (maximalRuns_clean line t ht).1)
  rw [maximalRuns_join] at h1
  exact h1.trans (List.length_filter_le _ _)

/-! ## Tokenizer theorems -/

/-- C1. With every allocation granted, `shelly_split_line` returns for every
line a NULL-terminated vector holding exactly the maximal runs of
non-delimiter characters of the line, left to right: the runs satisfy the
sentence `Runs` and are the only list that does, no token is empty, no token
holds one of the five delimiters, and the tokens put end to end are the line
with its delimiters removed, so every other character, `"` and `$` included,
comes through unchanged. The line `echo  hello   world` gives `echo`, `hello`,
`world`. -/
theorem shelly_split_line_maximal_runs (os : OS) (w : World) (line : CStr)
    (halloc : ∀ n, os.alloc n = true) :
    (∃ buf, shelly_split_line os w line = .ret buf w ∧
      readArgv buf = some (maximalRuns line)) ∧
    Runs line (maximalRuns line) ∧
    (∀ ts, Runs line ts → ts = maximalRuns line) ∧
    (∀ c, c ∈ SHELLY_TOK_DELIM ↔ isDelimiter c = true) ∧
    (∀ t ∈ maximalRuns line, t ≠ [] ∧ ∀ c ∈ t, isDelimiter c = false) ∧
    (maximalRuns line).flatten = line.filter (fun c => !isDelimiter c) ∧
    (∃ buf, shelly_split_line os w echoLine = .ret buf w ∧
      readArgv buf = some [['e', 'c', 'h', 'o'], ['h', 'e', 'l', 'l', 'o'],
        ['w', 'o', 'r', 'l', 'd']]) := by
  refine ⟨⟨_, split_line_result os halloc w line, readArgv_mkArgv _ _⟩,
    runs_maximalRuns line.length line (le_refl _),
    fun ts hts => (runs_unique line ts hts).symm,
    fun c => by rw [← mem_delim]; simp,
    maximalRuns_clean line, maximalRuns_join line,
    ⟨_, split_line_result os halloc w echoLine, ?_⟩⟩
  rw [finalBlock, readArgv_mkArgv]
  decide

/-- Instance of C1: the line `a"$ "b` on the sample system. -/
theorem shelly_split_line_maximal_runs_witness :
    (∀ n, sampleOS.alloc n = true) ∧
    (∃ buf, shelly_split_line sampleOS sampleWorld ['a', '"', '$', ' ', '"', 'b'] =
        .ret buf sampleWorld ∧
      readArgv buf = some (maximalRuns ['a', '"', '$', ' ', '"', 'b'])) ∧
    maximalRuns ['a', '"', '$', ' ', '"', 'b'] = [['a', '"', '$'], ['"', 'b']] :=
  ⟨fun _ => rfl,
    (shelly_split_line_maximal_runs sampleOS sampleWorld ['a', '"', '$', ' ', '"', 'b']
      (fun _ => rfl)).1, by decide⟩

/-- C10. With every allocation granted, every state the loop head of
`shelly_split_line` reaches has `position < bufsize`, `bufsize` a positive
multiple of 64 equal to the size of the block and at most the length of the
line plus 64, the next write `tokens[position]` inside the block, and the first `position` slots holding the first `position`
tokens of the line; the function returns a block whose size is a multiple of
64, that holds all `n` tokens at indices below `n` and the end marker at index
`n`, inside the block. Lines with any number `n` of tokens exist. -/
theorem shelly_split_line_in_bounds (os : OS) (w : World) (line : CStr)
    (halloc : ∀ n, os.alloc n = true) :
    (∀ s, SplitReach os w line s →
      s.position < s.bufsize ∧ 0 < s.bufsize ∧ SHELLY_TOK_BUFSIZE ∣ s.bufsize ∧
      s.tokens.length = s.bufsize ∧ s.bufsize ≤ line.length + SHELLY_TOK_BUFSIZE ∧
      (∀ v, ∃ b, store s.tokens s.position v = .ok b) ∧
      s.position ≤ (maximalRuns line).length ∧
      s.tokens.take s.position = ((maximalRuns line).take s.position).map Slot.ptr) ∧
    (∃ buf, shelly_split_line os w line = .ret buf w ∧
      (maximalRuns line).length < buf.length ∧ SHELLY_TOK_BUFSIZE ∣ buf.length ∧
      buf.take (maximalRuns line).length = (maximalRuns line).map Slot.ptr ∧
      buf.get? (maximalRuns line).length = some Slot.null) ∧
    (∀ n, (maximalRuns (lineOfTokens n)).length = n) := by
  refine ⟨?_, ⟨_, split_line_result os halloc w line, ?_, ?_, finalBlock_take _,
    finalBlock_get _⟩, maximalRuns_lineOfTokens⟩
  · intro s hs
    obtain ⟨done, ⟨hpos, hlt, hbuf, htok⟩, hrun⟩ := reach_inv os halloc w line s hs
    have hlen : s.tokens.length = s.bufsize := by
      rw [htok]; exact layout_length done s.bufsize (by omega)
    have hle : done.length ≤ line.length := by
      have h1 := maximalRuns_length_le line
      rw [← hrun, List.length_append] at h1
      omega
    refine ⟨hlt, by omega, ⟨_, hbuf⟩, hlen, ?_, ?_, ?_, ?_⟩
    · simp only [SHELLY_TOK_BUFSIZE] at hbuf ⊢
      omega
    · intro v
      exact ⟨_, by rw [store, if_pos (by omega)]⟩
    · rw [← hrun, hpos]; simp
    · rw [← hrun, hpos, List.take_left, htok, layout]
      have h : done.length = (done.map Slot.ptr).length := by simp
      conv_lhs => rw [h]
      rw [List.take_left]
  · rw [finalBlock_length]
    simp only [SHELLY_TOK_BUFSIZE]
    omega
  · rw [finalBlock_length]
    exact ⟨_, rfl⟩

/-- Instance of C10: a line of exactly 64 tokens on the sample system. -/
theorem shelly_split_line_in_bounds_witness :
    (∀ n, sampleOS.alloc n = true) ∧
    (∃ buf, shelly_split_line sampleOS sampleWorld (lineOfTokens 64) = .ret buf sampleWorld ∧
      (maximalRuns (lineOfTokens 64)).length < buf.length ∧ SHELLY_TOK_BUFSIZE ∣ buf.length ∧
      buf.take (maximalRuns (lineOfTokens 64)).length =
        (maximalRuns (lineOfTokens 64)).map Slot.ptr ∧
      buf.get? (maximalRuns (lineOfTokens 64)).length = some Slot.null) :=
  ⟨fun _ => rfl,
    (shelly_split_line_in_bounds sampleOS sampleWorld (lineOfTokens 64) (fun _ => rfl)).2.1⟩

/-! ## Lemmas: dispatcher and handlers -/

theorem strcmp_eq_zero (a b : CStr) : strcmp a b = 0 ↔ a = b := by
  induction a generalizing b with
  | nil => cases b <;> simp [strcmp]
  | cons x xs ih =>
    cases b with
    | nil => simp [strcmp]
    | cons y ys =>
      by_cases h : x = y
      · simp [strcmp, h, ih]
      · by_cases h2 : x.toNat < y.toNat <;> simp [strcmp, h, h2]

theorem load_mkArgv_zero_cons (a0 : CStr) (rest : List CStr) (junk : List Slot) :
    load (mkArgv (a0 :: rest) junk) 0 = .ok (.ptr a0) := rfl

theorem shelly_execute_nil (os : OS) (w : World) (junk : List Slot) :
    shelly_execute os w (mkArgv [] junk) = .ret 1 w := rfl

theorem shelly_execute_cons (os : OS) (w : World) (a0 : CStr) (rest : List CStr)
    (junk : List Slot) :
    shelly_execute os w (mkArgv (a0 :: rest) junk) =
      if a0 = ['c', 'd'] then shelly_cd os w (mkArgv (a0 :: rest) junk)
      else if a0 = ['h', 'e', 'l', 'p'] then shelly_help os w (mkArgv (a0 :: rest) junk)
      else if a0 = ['e', 'x', 'i', 't'] then shelly_exit os w (mkArgv (a0 :: rest) junk)
      else if a0 = ['h', 'e', 'l', 'l', 'o'] then shelly_hello os w (mkArgv (a0 :: rest) junk)
      else shelly_launch os w (mkArgv (a0 :: rest) junk) := by
  simp only [shelly_execute, load_mkArgv_zero_cons, shelly_num_builtins, builtin_str,
    List.length_cons, List.length_nil, execute_loop, load, List.get?, strcmp_eq_zero,
    builtin_func]

theorem shelly_help_eq (os : OS) (w : World) (args : List Slot) :
    shelly_help os w args = .ret 1 ((((((((((w.log
      (.stdout "This is a basic shell program, with basic functionality.\n")).log
      (.stdout "Type program names and arguments, and hit enter.\n")).log
      (.stdout "Autocomplete is also built in!\n")).log
      (.stdout "Partially type in command/arguement and hit the tab key.\n")).log
      (.stdout "These are the current commands built in:\n")).log
      (.stdout "  cd\n")).log (.stdout "  help\n")).log (.stdout "  exit\n")).log
      (.stdout "  hello\n")).log (.stdout "\n")) := by
  simp only [shelly_help, shelly_num_builtins, builtin_str, List.length_cons, List.length_nil,
    help_loop, load, List.get?, Outcome.bind]
  rfl

theorem shelly_cd_eq (os : OS) (w : World) (a0 : CStr) (rest : List CStr) (junk : List Slot) :
    shelly_cd os w (mkArgv (a0 :: rest) junk) =
      match cdTarget (a0 :: rest) w with
      | none => .ret 1 (w.log (.stderr "shelly: HOME environment variable not set\n"))
      | some target =>
        match os.resolve w.cwd target with
        | some d => .ret 1 ({ w with cwd := d }.log (.chdir target true))
        | none => .ret 1 ((w.log (.chdir target false)).log (.perror "shelly")) := by
  cases rest with
  | nil =>
    have hl : load (mkArgv [a0] junk) 1 = .ok .null := rfl
    simp only [shelly_cd, hl, cdTarget, List.get?]
    cases hh : w.home with
    | none => rfl
    | some home =>
      simp only [chdir]
      cases os.resolve w.cwd home <;> simp [hh]
  | cons d rest =>
    have hl : load (mkArgv (a0 :: d :: rest) junk) 1 = .ok (.ptr d) := rfl
    simp only [shelly_cd, hl, cdTarget, List.get?, chdir]
    cases os.resolve w.cwd d <;> simp

theorem wait_loop_nfork (pid : Int) (sts : List WaitStatus) :
    ∀ w, (wait_loop pid sts w).world.nfork = w.nfork := by
  induction sts with
  | nil => intro w; rfl
  | cons st sts ih =>
    intro w
    simp only [wait_loop]
    split
    · rw [ih]; rfl
    · rfl

theorem shelly_launch_nfork (os : OS) (w : World) (args : List Slot) :
    (shelly_launch os w args).world.nfork = w.nfork + 1 := by
  simp only [shelly_launch]
  split
  · split <;> try rfl
    split <;> rfl
  · split
    · rfl
    · have h := wait_loop_nfork (os.fork w.nfork) (os.childStatuses w.nfork)
        ({ w with nfork := w.nfork + 1 }.log (.fork (os.fork w.nfork)))
      generalize wait_loop (os.fork w.nfork) (os.childStatuses w.nfork)
        ({ w with nfork := w.nfork + 1 }.log (.fork (os.fork w.nfork))) = o at h
      cases o <;> simpa [Outcome.bind, Outcome.world] using h

theorem handler_changes_trace (os : OS) (w : World) :
    ∀ h ∈ builtin_func, ∀ args v w1, h os w args = .ret v w1 →
      w1.nfork = w.nfork ∧ w.trace.length < w1.trace.length := by
  intro h hh args v w1
  simp only [builtin_func, List.mem_cons, List.mem_singleton, List.not_mem_nil, or_false] at hh
  rcases hh with rfl | rfl | rfl | rfl
  · simp only [shelly_cd, chdir]
    intro he
    split at he
    · simp at he
    · split at he
      · split at he
        · split at he <;> simp only [Outcome.ret.injEq] at he <;> obtain ⟨_, rfl⟩ := he <;>
            simp [World.log]
        · split at he <;> simp only [Outcome.ret.injEq] at he <;> obtain ⟨_, rfl⟩ := he <;>
            simp [World.log]
      · simp only [Outcome.ret.injEq] at he
        obtain ⟨_, rfl⟩ := he
        simp [World.log]
    · split at he
      · split at he <;> simp only [Outcome.ret.injEq] at he <;> obtain ⟨_, rfl⟩ := he <;>
          simp [World.log]
      · split at he <;> simp only [Outcome.ret.injEq] at he <;> obtain ⟨_, rfl⟩ := he <;>
          simp [World.log]
    · simp at he
  · rw [shelly_help_eq]
    intro he
    simp only [Outcome.ret.injEq] at he
    obtain ⟨_, rfl⟩ := he
    simp [World.log]
  · simp only [shelly_exit, Outcome.ret.injEq]
    rintro ⟨_, rfl⟩
    simp [World.log]
  · simp only [shelly_hello, Outcome.ret.injEq]
    rintro ⟨_, rfl⟩
    simp [World.log]

/-! ## Launcher -/

theorem wait_loop_terminal (pid : Int) (st : WaitStatus) (post : List WaitStatus)
    (hst : (∃ c, st = .exited c) ∨ (∃ g, st = .signaled g)) :
    ∀ (pre : List WaitStatus) (w : World), (∀ s ∈ pre, ∃ g, s = .stopped g) →
      wait_loop pid (pre ++ st :: post) w =
        .ret () ⟨w.cwd, w.home, w.nfork, w.trace ++ (pre ++ [st]).map (Event.waitpid pid)⟩ := by
  intro pre
  induction pre with
  | nil =>
    intro w _
    rcases hst with ⟨c, rfl⟩ | ⟨g, rfl⟩ <;>
      simp [wait_loop, WIFEXITED, WIFSIGNALED, World.log]
  | cons s pre ih =>
    intro w hpre
    obtain ⟨g, rfl⟩ := hpre s (List.mem_cons_self _ _)
    simp only [List.cons_append, wait_loop, WIFEXITED, WIFSIGNALED, Bool.not_false,
      Bool.and_self, if_true, List.append_eq]
    rw [ih _ (fun s hs => hpre s (List.mem_cons_of_mem _ hs))]
    simp [World.log]

theorem wait_loop_stopped (pid : Int) :
    ∀ (sts : List WaitStatus) (w : World), (∀ s ∈ sts, ∃ g, s = .stopped g) →
      wait_loop pid sts w =
        .blocked ⟨w.cwd, w.home, w.nfork, w.trace ++ sts.map (Event.waitpid pid)⟩ := by
  intro sts
  induction sts with
  | nil => intro w _; simp [wait_loop]
  | cons s sts ih =>
    intro w hs
    obtain ⟨g, rfl⟩ := hs _ (List.mem_cons_self _ _)
    simp only [wait_loop, WIFEXITED, WIFSIGNALED, Bool.not_false, Bool.and_self, if_true]
    rw [ih _ (fun s h => hs s (List.mem_cons_of_mem _ h))]
    simp [World.log]

theorem wait_loop_ret (pid : Int) (sts : List WaitStatus) :
    ∀ w, ∃ o : Outcome Unit, wait_loop pid sts w = o ∧ ∀ v w1, o.bind (fun _ w2 => Outcome.ret (1 : Int) w2) = .ret v w1 → v = 1 := by
  intro w
  refine ⟨_, rfl, ?_⟩
  intro v w1
  cases wait_loop pid sts w <;> simp [Outcome.bind]
  intro h _
  exact h.symm

theorem shelly_launch_ret (os : OS) (w : World) (args : List Slot) (v : Int) (w1 : World)
    (h : shelly_launch os w args = .ret v w1) : v = 1 := by
  simp only [shelly_launch] at h
  split at h
  · split at h
    · simp at h
    · split at h <;> simp at h
    · simp at h
  · split at h
    · simp only [Outcome.ret.injEq] at h
      exact h.1.symm
    · obtain ⟨o, ho, hv⟩ := wait_loop_ret (os.fork w.nfork) (os.childStatuses w.nfork)
        ({ w with nfork := w.nfork + 1 }.log (.fork (os.fork w.nfork)))
      rw [ho] at h
      exact hv v w1 h

theorem shelly_launch_fork_failed (os : OS) (w : World) (args : List Slot)
    (hneg : os.fork w.nfork < 0) :
    shelly_launch os w args = .ret 1 ⟨w.cwd, w.home, w.nfork + 1,
      w.trace ++ [.fork (os.fork w.nfork), .perror "shelly"]⟩ := by
  have h0 : os.fork w.nfork ≠ 0 := by omega
  simp [shelly_launch, h0, hneg, World.log]

theorem shelly_launch_waits (os : OS) (w : World) (args : List Slot)
    (hpos : 0 < os.fork w.nfork) (pre : List WaitStatus) (st : WaitStatus)
    (post : List WaitStatus) (hsts : os.childStatuses w.nfork = pre ++ st :: post)
    (hpre : ∀ s ∈ pre, ∃ g, s = .stopped g)
    (hst : (∃ c, st = .exited c) ∨ (∃ g, st = .signaled g)) :
    shelly_launch os w args = .ret 1 ⟨w.cwd, w.home, w.nfork + 1,
      w.trace ++ .fork (os.fork w.nfork) ::
        (pre ++ [st]).map (Event.waitpid (os.fork w.nfork))⟩ := by
  have h0 : os.fork w.nfork ≠ 0 := by omega
  have h1 : ¬ os.fork w.nfork < 0 := by omega
  simp only [shelly_launch, h0, h1, if_false, hsts]
  rw [wait_loop_terminal _ st post hst pre _ hpre]
  simp [Outcome.bind, World.log]

theorem shelly_launch_blocked (os : OS) (w : World) (args : List Slot)
    (hpos : 0 < os.fork w.nfork) (hsts : ∀ s ∈ os.childStatuses w.nfork, ∃ g, s = .stopped g) :
    shelly_launch os w args = .blocked ⟨w.cwd, w.home, w.nfork + 1,
      w.trace ++ .fork (os.fork w.nfork) ::
        (os.childStatuses w.nfork).map (Event.waitpid (os.fork w.nfork))⟩ := by
  have h0 : os.fork w.nfork ≠ 0 := by omega
  have h1 : ¬ os.fork w.nfork < 0 := by omega
  simp only [shelly_launch, h0, h1, if_false]
  rw [wait_loop_stopped _ _ _ hsts]
  simp [Outcome.bind, World.log]

theorem exists_first_terminal (sts : List WaitStatus)
    (h : ∃ st ∈ sts, (∃ c, st = .exited c) ∨ (∃ g, st = .signaled g)) :
    ∃ pre st post, sts = pre ++ st :: post ∧ (∀ s ∈ pre, ∃ g, s = .stopped g) ∧
      ((∃ c, st = .exited c) ∨ (∃ g, st = .signaled g)) := by
  induction sts with
  | nil => simp at h
  | cons s sts ih =>
    cases s with
    | exited c => exact ⟨[], .exited c, sts, rfl, by simp, Or.inl ⟨c, rfl⟩⟩
    | signaled g => exact ⟨[], .signaled g, sts, rfl, by simp, Or.inr ⟨g, rfl⟩⟩
    | stopped g =>
      obtain ⟨st, hmem, hst⟩ := h
      have hmem2 : st ∈ sts := by
        rcases List.mem_cons.mp hmem with rfl | hm
        · rcases hst with ⟨c, hc⟩ | ⟨c, hc⟩ <;> cases hc
        · exact hm
      obtain ⟨pre, st1, post, rfl, hpre, hst1⟩ := ih ⟨st, hmem2, hst⟩
      refine ⟨.stopped g :: pre, st1, post, rfl, ?_, hst1⟩
      intro x hx
      rcases List.mem_cons.mp hx with rfl | hx
      · exact ⟨g, rfl⟩
      · exact hpre x hx

/-- C8. On the parent side `shelly_launch` returns only the value 1. When
`fork` fails it reports the error and returns 1 without waiting. When a child
was made and the statuses reported for it are some stopped ones, then a
normal exit or a termination by signal, then anything, the launcher calls
`waitpid` on that child once for each stopped status and once more for the
terminal one, and returns 1 right after it. When only stopped statuses are
ever reported the launcher never returns. -/
theorem shelly_launch_parent (os : OS) (w : World) (args : List Slot) :
    (∀ v w1, shelly_launch os w args = .ret v w1 → v = 1) ∧
    (os.fork w.nfork < 0 →
      shelly_launch os w args = .ret 1 ⟨w.cwd, w.home, w.nfork + 1,
        w.trace ++ [.fork (os.fork w.nfork), .perror "shelly"]⟩) ∧
    (0 < os.fork w.nfork → ∀ pre st post, os.childStatuses w.nfork = pre ++ st :: post →
      (∀ s ∈ pre, ∃ g, s = .stopped g) → ((∃ c, st = .exited c) ∨ (∃ g, st = .signaled g)) →
      shelly_launch os w args = .ret 1 ⟨w.cwd, w.home, w.nfork + 1,
        w.trace ++ .fork (os.fork w.nfork) ::
          (pre ++ [st]).map (Event.waitpid (os.fork w.nfork))⟩) ∧
    (0 < os.fork w.nfork → (∀ s ∈ os.childStatuses w.nfork, ∃ g, s = .stopped g) →
      shelly_launch os w args = .blocked ⟨w.cwd, w.home, w.nfork + 1,
        w.trace ++ .fork (os.fork w.nfork) ::
          (os.childStatuses w.nfork).map (Event.waitpid (os.fork w.nfork))⟩) :=
  ⟨fun v w1 h => shelly_launch_ret os w args v w1 h, shelly_launch_fork_failed os w args,
    shelly_launch_waits os w args, shelly_launch_blocked os w args⟩

/-- Instance of C8: child 5 is reported stopped, then exited. -/
theorem shelly_launch_parent_witness :
    0 < sampleOS.fork sampleWorld.nfork ∧
    shelly_launch sampleOS sampleWorld (mkArgv [['l', 's'], ['-', 'l']] []) =
      .ret 1 ⟨['/'], some ['/', 't', 'm', 'p'], 1,
        [.fork 5, .waitpid 5 (.stopped 19), .waitpid 5 (.exited 0)]⟩ :=
  ⟨by decide,
    (shelly_launch_parent sampleOS sampleWorld (mkArgv [['l', 's'], ['-', 'l']] [])).2.2.1
      (by decide) [.stopped 19] (.exited 0) [] rfl
      (fun s hs => ⟨19, List.mem_singleton.mp hs⟩) (Or.inl ⟨0, rfl⟩)⟩

/-! ## Dispatcher theorems -/

theorem maximalRuns_blank (line : CStr) (h : ∀ c ∈ line, c ∈ SHELLY_TOK_DELIM) :
    maximalRuns line = [] :=
  maximalRuns_all_delim line (fun c hc => by rw [← mem_delim]; simpa using h c hc)

/-- C2. With every allocation granted, a line made only of delimiter
characters, the empty line included, is split into the empty token list, and
`shelly_execute` on the returned vector returns 1 and leaves the state as it
was: the trace and the count of `fork` calls are unchanged, which is the
outcome of no builtin handler and not of the launcher. -/
theorem blank_line_continue (os : OS) (w : World) (line : CStr)
    (halloc : ∀ n, os.alloc n = true) (hblank : ∀ c ∈ line, c ∈ SHELLY_TOK_DELIM) :
    ∃ buf, shelly_split_line os w line = .ret buf w ∧ readArgv buf = some [] ∧
      shelly_execute os w buf = .ret 1 w ∧
      (∀ h ∈ builtin_func, ∀ args, h os w args ≠ .ret 1 w) ∧
      (∀ args, shelly_launch os w args ≠ .ret 1 w) := by
  refine ⟨_, split_line_result os halloc w line, ?_, ?_, ?_, ?_⟩
  · rw [maximalRuns_blank line hblank, finalBlock, readArgv_mkArgv]
  · rw [maximalRuns_blank line hblank, finalBlock, shelly_execute_nil]
  · intro h hh args he
    have := (handler_changes_trace os w h hh args 1 w he).2
    exact Nat.lt_irrefl _ this
  · intro args he
    have h := shelly_launch_nfork os w args
    rw [he] at h
    simp [Outcome.world] at h

/-- Instance of C2: the line of a space, a tab, a carriage return, a newline
and a bell. -/
theorem blank_line_continue_witness :
    (∀ n, sampleOS.alloc n = true) ∧
    (∀ c ∈ [' ', '\t', '\r', '\n', '\x07'], c ∈ SHELLY_TOK_DELIM) ∧
    ∃ buf, shelly_split_line sampleOS sampleWorld [' ', '\t', '\r', '\n', '\x07'] =
        .ret buf sampleWorld ∧ readArgv buf = some [] ∧
      shelly_execute sampleOS sampleWorld buf = .ret 1 sampleWorld :=
  ⟨fun _ => rfl, by decide,
    let ⟨buf, h1, h2, h3, _⟩ := blank_line_continue sampleOS sampleWorld
      [' ', '\t', '\r', '\n', '\x07'] (fun _ => rfl) (by decide)
    ⟨buf, h1, h2, h3⟩⟩

theorem names_eq : slotNames builtin_str =
    [['c', 'd'], ['h', 'e', 'l', 'p'], ['e', 'x', 'i', 't'], ['h', 'e', 'l', 'l', 'o']] := rfl

theorem shelly_execute_external (os : OS) (w : World) (a0 : CStr) (rest : List CStr)
    (junk : List Slot) (h : a0 ∉ slotNames builtin_str) :
    shelly_execute os w (mkArgv (a0 :: rest) junk) =
      shelly_launch os w (mkArgv (a0 :: rest) junk) := by
  rw [names_eq] at h
  simp only [List.mem_cons, List.mem_singleton, List.not_mem_nil, or_false, not_or] at h
  rw [shelly_execute_cons, if_neg h.1, if_neg h.2.1, if_neg h.2.2.1, if_neg h.2.2.2]

theorem load_builtin_str (i : Nat) (name : CStr) (h : load builtin_str i = .ok (.ptr name)) :
    (i = 0 ∧ name = ['c', 'd']) ∨ (i = 1 ∧ name = ['h', 'e', 'l', 'p']) ∨
    (i = 2 ∧ name = ['e', 'x', 'i', 't']) ∨ (i = 3 ∧ name = ['h', 'e', 'l', 'l', 'o']) := by
  match i with
  | 0 => simp [load, builtin_str] at h; simp [h]
  | 1 => simp [load, builtin_str] at h; simp [h]
  | 2 => simp [load, builtin_str] at h; simp [h]
  | 3 => simp [load, builtin_str] at h; simp [h]
  | n + 4 => simp [load, builtin_str] at h

theorem shelly_execute_builtin (os : OS) (w : World) (i : Nat) (name : CStr)
    (rest : List CStr) (junk : List Slot) (h : load builtin_str i = .ok (.ptr name)) :
    ∃ handler, builtin_func.get? i = some handler ∧
      shelly_execute os w (mkArgv (name :: rest) junk) =
        handler os w (mkArgv (name :: rest) junk) := by
  rcases load_builtin_str i name h with ⟨rfl, rfl⟩ | ⟨rfl, rfl⟩ | ⟨rfl, rfl⟩ | ⟨rfl, rfl⟩
  · exact ⟨shelly_cd, rfl, by rw [shelly_execute_cons]; simp⟩
  · exact ⟨shelly_help, rfl, by rw [shelly_execute_cons]; simp⟩
  · exact ⟨shelly_exit, rfl, by rw [shelly_execute_cons]; simp⟩
  · exact ⟨shelly_hello, rfl, by rw [shelly_execute_cons]; simp⟩

theorem shelly_cd_returns (os : OS) (w : World) (a0 : CStr) (rest : List CStr)
    (junk : List Slot) :
    ∃ w1, shelly_cd os w (mkArgv (a0 :: rest) junk) = .ret 1 w1 := by
  rw [shelly_cd_eq]
  cases cdTarget (a0 :: rest) w with
  | none => exact ⟨_, rfl⟩
  | some target =>
    simp only
    cases os.resolve w.cwd target with
    | none => exact ⟨_, rfl⟩
    | some d => exact ⟨_, rfl⟩

theorem builtin_returns (os : OS) (w : World) (i : Nat) (name : CStr)
    (rest : List CStr) (junk : List Slot) (h : load builtin_str i = .ok (.ptr name)) :
    ∃ handler v w1, builtin_func.get? i = some handler ∧
      shelly_execute os w (mkArgv (name :: rest) junk) =
        handler os w (mkArgv (name :: rest) junk) ∧
      handler os w (mkArgv (name :: rest) junk) = .ret v w1 ∧ w1.nfork = w.nfork ∧
      (v = 0 ∨ v = 1) ∧ (v = 0 ↔ name = ['e', 'x', 'i', 't']) := by
  obtain ⟨handler, hget, hexec⟩ := shelly_execute_builtin os w i name rest junk h
  have hmem : handler ∈ builtin_func := List.get?_mem hget
  rcases load_builtin_str i name h with ⟨rfl, rfl⟩ | ⟨rfl, rfl⟩ | ⟨rfl, rfl⟩ | ⟨rfl, rfl⟩
  · obtain rfl : shelly_cd = handler := by simpa [builtin_func] using hget
    obtain ⟨w1, hw1⟩ := shelly_cd_returns os w ['c', 'd'] rest junk
    exact ⟨_, 1, w1, hget, hexec, hw1, (handler_changes_trace os w _ hmem _ _ _ hw1).1,
      Or.inr rfl, by decide⟩
  · obtain rfl : shelly_help = handler := by simpa [builtin_func] using hget
    have hh := shelly_help_eq os w (mkArgv (['h', 'e', 'l', 'p'] :: rest) junk)
    exact ⟨_, 1, _, hget, hexec, hh, (handler_changes_trace os w _ hmem _ _ _ hh).1,
      Or.inr rfl, by decide⟩
  · obtain rfl : shelly_exit = handler := by simpa [builtin_func] using hget
    exact ⟨_, 0, _, hget, hexec, rfl, rfl, Or.inl rfl, by decide⟩
  · obtain rfl : shelly_hello = handler := by simpa [builtin_func] using hget
    exact ⟨_, 1, _, hget, hexec, rfl, rfl, Or.inr rfl, by decide⟩

theorem not_builtin_of_affix (a0 : CStr) :
    ∀ name ∈ slotNames builtin_str, ∀ (x : Char) (xs : CStr),
      a0 = name ++ x :: xs ∨ name = a0 ++ x :: xs → a0 ∉ slotNames builtin_str := by
  intro name hname x xs hx
  rw [names_eq] at hname ⊢
  simp only [List.mem_cons, List.mem_singleton, List.not_mem_nil, or_false] at hname
  intro hmem
  simp only [List.mem_cons, List.mem_singleton, List.not_mem_nil, or_false] at hmem
  rcases hname with rfl | rfl | rfl | rfl <;> rcases hx with rfl | hx <;>
    rcases hmem with h | h | h | h <;>
    first
      | (subst h; simp at hx)
      | simp at h

/-- C3. For every non-empty token list `a0 :: rest`: when `a0` is the name
stored at index `i` of `builtin_str`, `shelly_execute` is the call of
`builtin_func[i]` on the whole argument vector, it returns what that handler
returns and no `fork` is made; when `a0` is none of the builtin names, in
particular when it only extends one or is only a proper beginning of one,
`shelly_execute` is the call of `shelly_launch` on the whole, unchanged vector,
which makes one `fork`, hands the vector to `execvp` in the child, and in the
parent returns 1 only. So `ls -l` goes to the launcher with the vector
`ls`, `-l`, and in the parent returns 1 whatever status ends the child. -/
theorem shelly_execute_dispatch (os : OS) (w : World) (a0 : CStr) (rest : List CStr)
    (junk : List Slot) :
    (∀ i name, load builtin_str i = .ok (.ptr name) → a0 = name →
      ∃ handler v w1, builtin_func.get? i = some handler ∧
        shelly_execute os w (mkArgv (a0 :: rest) junk) =
          handler os w (mkArgv (a0 :: rest) junk) ∧
        handler os w (mkArgv (a0 :: rest) junk) = .ret v w1 ∧ w1.nfork = w.nfork) ∧
    (a0 ∉ slotNames builtin_str →
      shelly_execute os w (mkArgv (a0 :: rest) junk) =
        shelly_launch os w (mkArgv (a0 :: rest) junk) ∧
      readArgv (mkArgv (a0 :: rest) junk) = some (a0 :: rest) ∧
      (shelly_launch os w (mkArgv (a0 :: rest) junk)).world.nfork = w.nfork + 1 ∧
      (∀ v w1, shelly_launch os w (mkArgv (a0 :: rest) junk) = .ret v w1 → v = 1) ∧
      (os.fork w.nfork = 0 → os.execvp a0 (mkArgv (a0 :: rest) junk) = true →
        shelly_launch os w (mkArgv (a0 :: rest) junk) =
          .execed a0 (mkArgv (a0 :: rest) junk) ⟨w.cwd, w.home, w.nfork + 1,
            w.trace ++ [.fork 0, .execvp a0 (mkArgv (a0 :: rest) junk) true]⟩)) ∧
    (∀ name ∈ slotNames builtin_str, ∀ (x : Char) (xs : CStr),
      a0 = name ++ x :: xs ∨ name = a0 ++ x :: xs →
      shelly_execute os w (mkArgv (a0 :: rest) junk) =
        shelly_launch os w (mkArgv (a0 :: rest) junk)) ∧
    shelly_execute os w (mkArgv [['l', 's'], ['-', 'l']] junk) =
      shelly_launch os w (mkArgv [['l', 's'], ['-', 'l']] junk) ∧
    (0 < os.fork w.nfork → ∀ pre st post, os.childStatuses w.nfork = pre ++ st :: post →
      (∀ s ∈ pre, ∃ g, s = .stopped g) → ((∃ c, st = .exited c) ∨ (∃ g, st = .signaled g)) →
      ∃ w1, shelly_execute os w (mkArgv [['l', 's'], ['-', 'l']] junk) = .ret 1 w1) := by
  refine ⟨?_, ?_, ?_, ?_, ?_⟩
  · rintro i name hload rfl
    obtain ⟨handler, v, w1, h1, h2, h3, h4, _⟩ := builtin_returns os w i a0 rest junk hload
    exact ⟨handler, v, w1, h1, h2, h3, h4⟩
  · intro hn
    refine ⟨shelly_execute_external os w a0 rest junk hn, readArgv_mkArgv _ _,
      shelly_launch_nfork os w _, fun v w1 h => shelly_launch_ret os w _ v w1 h, ?_⟩
    intro hf hx
    have hl : load (mkArgv (a0 :: rest) junk) 0 = .ok (.ptr a0) := rfl
    simp [shelly_launch, hf, hl, hx, World.log]
  · intro name hname x xs hx
    exact shelly_execute_external os w a0 rest junk (not_builtin_of_affix a0 name hname x xs hx)
  · exact shelly_execute_external os w _ _ junk (by decide)
  · intro hpos pre st post hsts hpre hst
    rw [shelly_execute_external os w _ _ junk (by decide)]
    exact ⟨_, shelly_launch_waits os w _ hpos pre st post hsts hpre hst⟩

/-- Instance of C3: `cd /tmp` is the call of `shelly_cd`, the handler at index 0. -/
theorem shelly_execute_dispatch_witness :
    load builtin_str 0 = .ok (.ptr ['c', 'd']) ∧
    ∃ handler v w1, builtin_func.get? 0 = some handler ∧
      shelly_execute sampleOS sampleWorld (mkArgv [['c', 'd'], ['/', 't', 'm', 'p']] []) =
        handler sampleOS sampleWorld (mkArgv [['c', 'd'], ['/', 't', 'm', 'p']] []) ∧
      handler sampleOS sampleWorld (mkArgv [['c', 'd'], ['/', 't', 'm', 'p']] []) = .ret v w1 ∧
      w1.nfork = sampleWorld.nfork :=
  ⟨rfl, (shelly_execute_dispatch sampleOS sampleWorld ['c', 'd'] [['/', 't', 'm', 'p']] []).1
    0 ['c', 'd'] rfl rfl⟩

/-! ## Signals, `cd` and the tables -/

theorem load_of_mem_names (a0 : CStr) (h : a0 ∈ slotNames builtin_str) :
    ∃ i, load builtin_str i = .ok (.ptr a0) := by
  rw [names_eq] at h
  simp only [List.mem_cons, List.mem_singleton, List.not_mem_nil, or_false] at h
  rcases h with rfl | rfl | rfl | rfl
  · exact ⟨0, rfl⟩
  · exact ⟨1, rfl⟩
  · exact ⟨2, rfl⟩
  · exact ⟨3, rfl⟩

theorem shelly_execute_builtin_ret (os : OS) (w : World) (a0 : CStr) (rest : List CStr)
    (junk : List Slot) (h : a0 ∈ slotNames builtin_str) :
    ∃ v w1, shelly_execute os w (mkArgv (a0 :: rest) junk) = .ret v w1 ∧
      (v = 0 ∨ v = 1) ∧ (v = 0 ↔ a0 = ['e', 'x', 'i', 't']) := by
  obtain ⟨i, hi⟩ := load_of_mem_names a0 h
  obtain ⟨handler, v, w1, _, h2, h3, _, h5, h6⟩ := builtin_returns os w i a0 rest junk hi
  exact ⟨v, w1, h2.trans h3, h5, h6⟩

/-- C4. `shelly_execute` returns only 0 or 1, and 0 exactly when the token
list is not empty and token 0 is `exit`. It does return 0 on `exit`; it
returns 1 on the empty list and on `cd`, `help` and `hello`; for any other
command it returns 1 in the parent when `fork` fails or when the child is
reported exited or killed by a signal, whatever the status. -/
theorem shelly_execute_stop_iff_exit (os : OS) (w : World) (ts : List CStr) (junk : List Slot) :
    (∀ v w1, shelly_execute os w (mkArgv ts junk) = .ret v w1 →
      (v = 0 ∨ v = 1) ∧ (v = 0 ↔ ts.head? = some ['e', 'x', 'i', 't'])) ∧
    (ts.head? = some ['e', 'x', 'i', 't'] →
      ∃ w1, shelly_execute os w (mkArgv ts junk) = .ret 0 w1) ∧
    (ts = [] → shelly_execute os w (mkArgv ts junk) = .ret 1 w) ∧
    (∀ name ∈ [['c', 'd'], ['h', 'e', 'l', 'p'], ['h', 'e', 'l', 'l', 'o']],
      ts.head? = some name → ∃ w1, shelly_execute os w (mkArgv ts junk) = .ret 1 w1) ∧
    (∀ a0, ts.head? = some a0 → a0 ∉ slotNames builtin_str → os.fork w.nfork ≠ 0 →
      (os.fork w.nfork < 0 ∨
        ∃ st ∈ os.childStatuses w.nfork, (∃ c, st = .exited c) ∨ (∃ g, st = .signaled g)) →
      ∃ w1, shelly_execute os w (mkArgv ts junk) = .ret 1 w1) := by
  refine ⟨?_, ?_, ?_, ?_, ?_⟩
  · intro v w1 hret
    cases ts with
    | nil =>
      rw [shelly_execute_nil] at hret
      simp only [Outcome.ret.injEq] at hret
      obtain ⟨rfl, _⟩ := hret
      simp
    | cons a0 rest =>
      by_cases hmem : a0 ∈ slotNames builtin_str
      · obtain ⟨v2, w2, h1, h2, h3⟩ := shelly_execute_builtin_ret os w a0 rest junk hmem
        rw [h1] at hret
        simp only [Outcome.ret.injEq] at hret
        obtain ⟨rfl, _⟩ := hret
        exact ⟨h2, by simpa using h3⟩
      · rw [shelly_execute_external os w a0 rest junk hmem] at hret
        have hv := shelly_launch_ret os w _ v w1 hret
        subst hv
        refine ⟨Or.inr rfl, ?_⟩
        simp only [one_ne_zero, List.head?_cons, Option.some.injEq, false_iff]
        rintro rfl
        exact hmem (by decide)
  · intro hhead
    cases ts with
    | nil => simp at hhead
    | cons a0 rest =>
      simp only [List.head?_cons, Option.some.injEq] at hhead
      subst hhead
      obtain ⟨v2, w2, h1, _, h3⟩ := shelly_execute_builtin_ret os w ['e', 'x', 'i', 't'] rest junk (by decide)
      have hv : v2 = 0 := h3.mpr rfl
      subst hv
      exact ⟨w2, h1⟩
  · rintro rfl
    exact shelly_execute_nil os w junk
  · intro name hname hhead
    cases ts with
    | nil => simp at hhead
    | cons a0 rest =>
      simp only [List.head?_cons, Option.some.injEq] at hhead
      subst hhead
      have hmem : a0 ∈ slotNames builtin_str := by
        rw [names_eq]
        simp only [List.mem_cons, List.mem_singleton, List.not_mem_nil, or_false] at hname ⊢
        tauto
      have hne : a0 ≠ ['e', 'x', 'i', 't'] := by
        simp only [List.mem_cons, List.mem_singleton, List.not_mem_nil, or_false] at hname
        rcases hname with rfl | rfl | rfl <;> decide
      obtain ⟨v2, w2, h1, h2, h3⟩ := shelly_execute_builtin_ret os w a0 rest junk hmem
      rcases h2 with rfl | rfl
      · exact absurd (h3.mp rfl) hne
      · exact ⟨w2, h1⟩
  · intro a0 hhead hmem hf hterm
    cases ts with
    | nil => simp at hhead
    | cons a1 rest =>
      simp only [List.head?_cons, Option.some.injEq] at hhead
      subst hhead
      rw [shelly_execute_external os w a1 rest junk hmem]
      rcases hterm with hneg | hterm
      · exact ⟨_, shelly_launch_fork_failed os w _ hneg⟩
      · obtain ⟨pre, st, post, hsts, hpre, hst⟩ := exists_first_terminal _ hterm
        by_cases hneg : os.fork w.nfork < 0
        · exact ⟨_, shelly_launch_fork_failed os w _ hneg⟩
        · exact ⟨_, shelly_launch_waits os w _ (by omega) pre st post hsts hpre hst⟩

/-- Instance of C4: `exit` stops, `sleep 9` continues on the sample system. -/
theorem shelly_execute_stop_iff_exit_witness :
    (∃ w1, shelly_execute sampleOS sampleWorld (mkArgv [['e', 'x', 'i', 't']] []) = .ret 0 w1) ∧
    (∃ w1, shelly_execute sampleOS sampleWorld
      (mkArgv [['s', 'l', 'e', 'e', 'p'], ['9']] []) = .ret 1 w1) :=
  ⟨(shelly_execute_stop_iff_exit sampleOS sampleWorld [['e', 'x', 'i', 't']] []).2.1 rfl,
    (shelly_execute_stop_iff_exit sampleOS sampleWorld
      [['s', 'l', 'e', 'e', 'p'], ['9']] []).2.2.2.2 ['s', 'l', 'e', 'e', 'p'] rfl
      (by decide) (by decide) (Or.inr ⟨.exited 0, by decide, Or.inl ⟨0, rfl⟩⟩)⟩

/-- C7. For every token list `cd :: rest`, `shelly_cd` returns 1 and leaves
`HOME` as it was. The path it hands to `chdir` is token 1 when there is one
and otherwise the value of `HOME`. When `chdir` succeeds the working directory
becomes the directory that path names, which is the path itself when the
system resolves it to itself; when `chdir` fails the error is reported through
`perror` and the working directory is unchanged; with no argument and `HOME`
unset the error is reported on the standard error stream, `chdir` is not
called and the working directory is unchanged. -/
theorem shelly_cd_spec (os : OS) (w : World) (rest : List CStr) (junk : List Slot) :
    ∃ w1, shelly_cd os w (mkArgv (['c', 'd'] :: rest) junk) = .ret 1 w1 ∧ w1.home = w.home ∧
      (∀ dir, rest.head? = some dir → cdTarget (['c', 'd'] :: rest) w = some dir) ∧
      (rest = [] → cdTarget (['c', 'd'] :: rest) w = w.home) ∧
      (∀ target, cdTarget (['c', 'd'] :: rest) w = some target →
        (∀ d, os.resolve w.cwd target = some d →
          w1.cwd = d ∧ w1.trace = w.trace ++ [.chdir target true]) ∧
        (os.resolve w.cwd target = some target → w1.cwd = target) ∧
        (os.resolve w.cwd target = none →
          w1.cwd = w.cwd ∧ w1.trace = w.trace ++ [.chdir target false, .perror "shelly"])) ∧
      (cdTarget (['c', 'd'] :: rest) w = none →
        w1.cwd = w.cwd ∧
        w1.trace = w.trace ++ [.stderr "shelly: HOME environment variable not set\n"]) := by
  have hd : ∀ dir, rest.head? = some dir → cdTarget (['c', 'd'] :: rest) w = some dir := by
    intro dir h
    cases rest with
    | nil => simp at h
    | cons d r => simp at h; simp [cdTarget, h]
  have hn : rest = [] → cdTarget (['c', 'd'] :: rest) w = w.home := by
    rintro rfl
    rfl
  rw [shelly_cd_eq]
  cases ht : cdTarget (['c', 'd'] :: rest) w with
  | none =>
    refine ⟨_, rfl, rfl, by simpa [ht] using hd, by simpa [ht] using hn, by simp, ?_⟩
    intro _
    simp [World.log]
  | some target =>
    simp only
    cases hr : os.resolve w.cwd target with
    | none =>
      refine ⟨_, rfl, rfl, by simpa [ht] using hd, by simpa [ht] using hn, ?_, by simp⟩
      intro t2 ht2
      simp only [Option.some.injEq] at ht2
      subst ht2
      simp [hr, World.log]
    | some d =>
      refine ⟨_, rfl, rfl, by simpa [ht] using hd, by simpa [ht] using hn, ?_, by simp⟩
      intro t2 ht2
      simp only [Option.some.injEq] at ht2
      subst ht2
      simp [hr, World.log]

/-- Instance of C7: `cd` without argument and `HOME=/tmp` on the sample system. -/
theorem shelly_cd_spec_witness :
    cdTarget [['c', 'd']] sampleWorld = some ['/', 't', 'm', 'p'] ∧
    sampleOS.resolve sampleWorld.cwd ['/', 't', 'm', 'p'] = some ['/', 't', 'm', 'p'] ∧
    ∃ w1, shelly_cd sampleOS sampleWorld (mkArgv [['c', 'd']] []) = .ret 1 w1 ∧
      w1.cwd = ['/', 't', 'm', 'p'] :=
  ⟨rfl, rfl,
    let ⟨w1, h1, _, _, _, h5, _⟩ := shelly_cd_spec sampleOS sampleWorld [] []
    ⟨w1, h1, (h5 ['/', 't', 'm', 'p'] rfl).2.1 rfl⟩⟩

/-- C9. The name table and the handler table have the same length, 4, which
is what `shelly_num_builtins` returns; the names `cd`, `help`, `exit`,
`hello` are pairwise distinct; the handlers are, index by index, `shelly_cd`,
`shelly_help`, `shelly_exit`, `shelly_hello`; and for every index `i` below
the count, dispatching a token list whose token 0 is the name at index `i`
is the call of the handler at index `i`. -/
theorem builtin_tables_correspond :
    builtin_str.length = builtin_func.length ∧ shelly_num_builtins = builtin_str.length ∧
    shelly_num_builtins = 4 ∧
    slotNames builtin_str =
      [['c', 'd'], ['h', 'e', 'l', 'p'], ['e', 'x', 'i', 't'], ['h', 'e', 'l', 'l', 'o']] ∧
    (slotNames builtin_str).Nodup ∧
    builtin_func = [shelly_cd, shelly_help, shelly_exit, shelly_hello] ∧
    (∀ i, i < shelly_num_builtins → ∃ name handler,
      load builtin_str i = .ok (.ptr name) ∧ (slotNames builtin_str).get? i = some name ∧
      builtin_func.get? i = some handler ∧
      ∀ (os : OS) (w : World) (rest : List CStr) (junk : List Slot),
        shelly_execute os w (mkArgv (name :: rest) junk) =
          handler os w (mkArgv (name :: rest) junk)) := by
  refine ⟨rfl, rfl, rfl, rfl, by decide, rfl, ?_⟩
  intro i hi
  have hi4 : i < 4 := hi
  have key : ∀ name, load builtin_str i = .ok (.ptr name) →
      (slotNames builtin_str).get? i = some name →
      ∃ name handler, load builtin_str i = .ok (.ptr name) ∧
        (slotNames builtin_str).get? i = some name ∧ builtin_func.get? i = some handler ∧
        ∀ (os : OS) (w : World) (rest : List CStr) (junk : List Slot),
          shelly_execute os w (mkArgv (name :: rest) junk) =
            handler os w (mkArgv (name :: rest) junk) := by
    intro name hl hs
    obtain ⟨handler, hget, _⟩ := shelly_execute_builtin sampleOS sampleWorld i name [] [] hl
    refine ⟨name, handler, hl, hs, hget, ?_⟩
    intro os w rest junk
    obtain ⟨handler2, hget2, hex⟩ := shelly_execute_builtin os w i name rest junk hl
    rw [hget] at hget2
    simp only [Option.some.injEq] at hget2
    subst hget2
    exact hex
  interval_cases i
  · exact key ['c', 'd'] rfl rfl
  · exact key ['h', 'e', 'l', 'p'] rfl rfl
  · exact key ['e', 'x', 'i', 't'] rfl rfl
  · exact key ['h', 'e', 'l', 'l', 'o'] rfl rfl

/-- Instance of C9: index 2 holds `exit` and `shelly_exit`. -/
theorem builtin_tables_correspond_witness :
    2 < shelly_num_builtins ∧
    ∃ name handler, load builtin_str 2 = .ok (.ptr name) ∧
      (slotNames builtin_str).get? 2 = some name ∧ builtin_func.get? 2 = some handler ∧
      ∀ (os : OS) (w : World) (rest : List CStr) (junk : List Slot),
        shelly_execute os w (mkArgv (name :: rest) junk) =
          handler os w (mkArgv (name :: rest) junk) :=
  ⟨by decide, builtin_tables_correspond.2.2.2.2.2.2 2 (by decide)⟩

/-! ## Completion -/

theorem strncmp_eq_zero (a b : CStr) (n : Nat) : strncmp a b n = 0 ↔ a.take n = b.take n := by
  induction n generalizing a b with
  | zero => simp [strncmp]
  | succ n ih =>
    cases a with
    | nil => cases b <;> simp [strncmp]
    | cons x xs =>
      cases b with
      | nil => simp [strncmp]
      | cons y ys =>
        by_cases h : x = y
        · simp [strncmp, h, ih]
        · by_cases h2 : x.toNat < y.toNat <;> simp [strncmp, h, h2]

theorem strncmp_strlen (name text : CStr) :
    strncmp name text (strlen text) = 0 ↔ text.isPrefixOf name = true := by
  rw [strncmp_eq_zero, strlen, List.take_length, List.isPrefixOf_iff_prefix,
    List.prefix_iff_eq_take]
  exact eq_comm

theorem completion_matches_step (text : CStr) (f i : Nat) (found : List CStr)
    (h : found = [] → i = 0) :
    completion_matches text (f + 1) ⟨i, strlen text⟩ found =
      match generator_loop text (strlen text) (4 - i + 1) i with
      | .error e => (found, some e)
      | .ok (none, _) => (found, none)
      | .ok (some name, j) => completion_matches text f ⟨j, strlen text⟩ (found ++ [name]) := by
  have hst : (if (found.length : Int) = 0 then (⟨0, strlen text⟩ : GenState)
      else ⟨i, strlen text⟩) = ⟨i, strlen text⟩ := by
    split
    · rename_i h0
      have : found = [] := List.length_eq_zero.mp (by exact_mod_cast h0)
      rw [h this]
    · rfl
  simp only [completion_matches, command_generator, hst, builtin_str, List.length_cons,
    List.length_nil]
  rcases generator_loop text (strlen text) (4 - i + 1) i with e | ⟨_ | name, j⟩ <;> rfl

theorem generator_loop_step (text : CStr) (len k i : Nat) (name : CStr)
    (h : load builtin_str i = .ok (.ptr name)) :
    generator_loop text len (k + 1) i =
      if strncmp name text len = 0 then .ok (some name, i + 1)
      else generator_loop text len k (i + 1) := by
  simp only [generator_loop, h]

theorem completion_from (text : CStr) :
    ∀ (d i : Nat), i + d = 4 → ∀ (f : Nat) (found : List CStr), d ≤ f →
      (match generator_loop text (strlen text) (4 - i + 1) i with
        | .error e => (found, some e)
        | .ok (none, _) => (found, none)
        | .ok (some name, j) =>
          completion_matches text f ⟨j, strlen text⟩ (found ++ [name])) =
        (found ++ ((slotNames builtin_str).drop i).filter (fun name => text.isPrefixOf name),
          some Fault.outOfBounds) := by
  intro d
  induction d with
  | zero =>
    intro i hi f found _
    obtain rfl : i = 4 := by omega
    simp [generator_loop, load, builtin_str, slotNames]
  | succ d ih =>
    intro i hi f found hf
    obtain ⟨f1, rfl⟩ : ∃ f1, f = f1 + 1 := ⟨f - 1, by omega⟩
    have hk : 4 - i + 1 = (4 - (i + 1) + 1) + 1 := by omega
    have key : ∀ name, load builtin_str i = .ok (.ptr name) →
        (slotNames builtin_str).drop i = name :: (slotNames builtin_str).drop (i + 1) →
        (match generator_loop text (strlen text) (4 - i + 1) i with
          | .error e => (found, some e)
          | .ok (none, _) => (found, none)
          | .ok (some name, j) =>
            completion_matches text (f1 + 1) ⟨j, strlen text⟩ (found ++ [name])) =
          (found ++ ((slotNames builtin_str).drop i).filter (fun name => text.isPrefixOf name),
            some Fault.outOfBounds) := by
      intro name hl hdrop
      rw [hk, generator_loop_step text _ _ i name hl, hdrop]
      by_cases hp : text.isPrefixOf name = true
      · rw [if_pos ((strncmp_strlen name text).mpr hp)]
        simp only
        rw [completion_matches_step text f1 (i + 1) _ (by simp),
          ih (i + 1) (by omega) f1 _ (by omega), List.filter_cons_of_pos hp]
        simp
      · rw [if_neg (fun h => hp ((strncmp_strlen name text).mp h)),
          ih (i + 1) (by omega) (f1 + 1) found (by omega), List.filter_cons_of_neg hp]
    have hi4 : i < 4 := by omega
    interval_cases i
    · exact key ['c', 'd'] rfl rfl
    · exact key ['h', 'e', 'l', 'p'] rfl rfl
    · exact key ['e', 'x', 'i', 't'] rfl rfl
    · exact key ['h', 'e', 'l', 'l', 'o'] rfl rfl

theorem command_generator_reset (st : GenState) (text : CStr) :
    command_generator st text 0 = command_generator ⟨0, strlen text⟩ text 0 := by
  simp [command_generator]

theorem completion_eval (st : GenState) (text : CStr) :
    completion_matches text (builtin_str.length + 2) st [] =
      ((slotNames builtin_str).filter (fun name => text.isPrefixOf name),
        some Fault.outOfBounds) := by
  have h0 : completion_matches text (builtin_str.length + 2) st [] =
      completion_matches text (5 + 1) ⟨0, strlen text⟩ [] := by
    show completion_matches text (5 + 1) st [] = _
    simp only [completion_matches, List.length_nil, Nat.cast_zero]
    rw [command_generator_reset st text]
  rw [h0, completion_matches_step text 5 0 [] (fun _ => rfl),
    completion_from text 4 0 rfl 5 [] (by omega)]
  simp

/-- C5. At cursor position 0 the enumeration `shelly_command_completion`
drives yields, for every prefix, exactly the builtin names that start with the
prefix, in table order; but it does not end with NULL: the call of
`command_generator` after the last candidate reads `builtin_str[4]`, one slot
past the four the table has. For a start position other than 0 no candidate is
returned. For the prefix `h` the candidates are `help`, `hello`. -/
theorem completion_reads_past_builtin_str (st : GenState) (text : CStr) (e : Int) :
    shelly_command_completion st text 0 e =
      some ((slotNames builtin_str).filter (fun name => text.isPrefixOf name),
        some Fault.outOfBounds) ∧
    load builtin_str shelly_num_builtins = .error Fault.outOfBounds ∧
    (∀ start, start ≠ 0 → shelly_command_completion st text start e = none) ∧
    shelly_command_completion st ['h'] 0 e =
      some ([['h', 'e', 'l', 'p'], ['h', 'e', 'l', 'l', 'o']], some Fault.outOfBounds) := by
  refine ⟨?_, rfl, ?_, ?_⟩
  · simp only [shelly_command_completion, if_true]
    rw [completion_eval]
  · intro start hs
    simp [shelly_command_completion, hs]
  · simp only [shelly_command_completion, if_true]
    rw [completion_eval]
    rfl

/-! ## Shell loop -/

theorem readsOf_log (w : World) (e : Event) :
    readsOf (w.log e).trace = readsOf w.trace ++ readsOf [e] := by
  simp [World.log, readsOf, List.filterMap_append]

theorem split_body_world (os : OS) (w w1 : World) (s s1 : SplitState) (t : CStr)
    (h : split_body os w s t = .ret s1 w1) : w1 = w := by
  simp only [split_body] at h
  split at h
  · simp at h
  · split at h
    · split at h
      · simp only [Outcome.ret.injEq] at h
        exact h.2.symm
      · simp at h
    · simp only [Outcome.ret.injEq] at h
      exact h.2.symm

theorem split_loop_world (os : OS) (w : World) :
    ∀ (fuel : Nat) (s : SplitState) (buf : List Slot) (w1 : World),
      split_loop os fuel w s = .ret buf w1 → w1 = w := by
  intro fuel
  induction fuel with
  | zero => intro s buf w1 h; simp [split_loop] at h
  | succ fuel ih =>
    intro s buf w1 h
    simp only [split_loop] at h
    split at h
    · split at h
      · simp at h
      · simp only [Outcome.ret.injEq] at h
        exact h.2.symm
    · rename_i t _
      cases hb : split_body os w s t with
      | ret s2 w2 =>
        rw [hb] at h
        simp only [Outcome.bind] at h
        have hw := split_body_world os w w2 s s2 t hb
        subst hw
        exact ih s2 buf w1 h
      | terminated c w2 => rw [hb] at h; simp [Outcome.bind] at h
      | execed f a w2 => rw [hb] at h; simp [Outcome.bind] at h
      | blocked w2 => rw [hb] at h; simp [Outcome.bind] at h
      | fault f w2 => rw [hb] at h; simp [Outcome.bind] at h

theorem shelly_split_line_world (os : OS) (w w1 : World) (line : CStr) (buf : List Slot)
    (h : shelly_split_line os w line = .ret buf w1) : w1 = w := by
  simp only [shelly_split_line] at h
  split at h
  · exact split_loop_world os w _ _ buf w1 h
  · simp at h

theorem handler_reads (os : OS) (w : World) :
    ∀ h ∈ builtin_func, ∀ args v w1, h os w args = .ret v w1 →
      readsOf w1.trace = readsOf w.trace := by
  intro h hh args v w1
  simp only [builtin_func, List.mem_cons, List.mem_singleton, List.not_mem_nil, or_false] at hh
  rcases hh with rfl | rfl | rfl | rfl
  · simp only [shelly_cd, chdir]
    intro he
    split at he
    · simp at he
    · split at he
      · split at he
        · split at he <;> simp only [Outcome.ret.injEq] at he <;> obtain ⟨_, rfl⟩ := he <;>
            simp [World.log, readsOf, List.filterMap_append]
        · split at he <;> simp only [Outcome.ret.injEq] at he <;> obtain ⟨_, rfl⟩ := he <;>
            simp [World.log, readsOf, List.filterMap_append]
      · simp only [Outcome.ret.injEq] at he
        obtain ⟨_, rfl⟩ := he
        simp [World.log, readsOf, List.filterMap_append]
    · split at he
      · split at he <;> simp only [Outcome.ret.injEq] at he <;> obtain ⟨_, rfl⟩ := he <;>
          simp [World.log, readsOf, List.filterMap_append]
      · split at he <;> simp only [Outcome.ret.injEq] at he <;> obtain ⟨_, rfl⟩ := he <;>
          simp [World.log, readsOf, List.filterMap_append]
    · simp at he
  · rw [shelly_help_eq]
    intro he
    simp only [Outcome.ret.injEq] at he
    obtain ⟨_, rfl⟩ := he
    simp [World.log, readsOf, List.filterMap_append]
  · simp only [shelly_exit, Outcome.ret.injEq]
    rintro ⟨_, rfl⟩
    simp [World.log, readsOf, List.filterMap_append]
  · simp only [shelly_hello, Outcome.ret.injEq]
    rintro ⟨_, rfl⟩
    simp [World.log, readsOf, List.filterMap_append]

theorem wait_loop_reads (pid : Int) (sts : List WaitStatus) :
    ∀ w, readsOf (wait_loop pid sts w).world.trace = readsOf w.trace := by
  induction sts with
  | nil => intro w; rfl
  | cons st sts ih =>
    intro w
    simp only [wait_loop]
    split
    · rw [ih, readsOf_log]; simp [readsOf]
    · simp only [Outcome.world]
      rw [readsOf_log]; simp [readsOf]

theorem shelly_launch_reads (os : OS) (w w1 : World) (args : List Slot) (v : Int)
    (h : shelly_launch os w args = .ret v w1) : readsOf w1.trace = readsOf w.trace := by
  simp only [shelly_launch] at h
  split at h
  · split at h
    · simp at h
    · split at h <;> simp at h
    · simp at h
  · split at h
    · simp only [Outcome.ret.injEq] at h
      obtain ⟨_, rfl⟩ := h
      simp [World.log, readsOf, List.filterMap_append]
    · have hw := wait_loop_reads (os.fork w.nfork) (os.childStatuses w.nfork)
        ({ w with nfork := w.nfork + 1 }.log (.fork (os.fork w.nfork)))
      generalize wait_loop (os.fork w.nfork) (os.childStatuses w.nfork)
        ({ w with nfork := w.nfork + 1 }.log (.fork (os.fork w.nfork))) = o at h hw
      cases o with
      | ret u w2 =>
        simp only [Outcome.bind, Outcome.ret.injEq] at h
        obtain ⟨_, rfl⟩ := h
        simp only [Outcome.world] at hw
        rw [hw]
        simp [World.log, readsOf, List.filterMap_append]
      | terminated c w2 => simp [Outcome.bind] at h
      | execed f a w2 => simp [Outcome.bind] at h
      | blocked w2 => simp [Outcome.bind] at h
      | fault f w2 => simp [Outcome.bind] at h

theorem execute_loop_reads (os : OS) (w w1 : World) (args : List Slot) (a0 : CStr) (v : Int) :
    ∀ k i, execute_loop os w args a0 k i = .ret v w1 → readsOf w1.trace = readsOf w.trace := by
  intro k
  induction k with
  | zero =>
    intro i h
    exact shelly_launch_reads os w w1 args v h
  | succ k ih =>
    intro i h
    simp only [execute_loop] at h
    split at h
    · split at h
      · split at h
        · rename_i handler hget
          exact handler_reads os w handler (List.get?_mem hget) args v w1 h
        · simp at h
      · exact ih _ h
    · simp at h
    · simp at h

theorem shelly_execute_reads (os : OS) (w w1 : World) (args : List Slot) (v : Int)
    (h : shelly_execute os w args = .ret v w1) : readsOf w1.trace = readsOf w.trace := by
  simp only [shelly_execute] at h
  split at h
  · simp at h
  · simp only [Outcome.ret.injEq] at h
    rw [h.2]
  · exact execute_loop_reads os w w1 args _ v _ _ h
  · simp at h

theorem read_line_fst (w : World) (l : CStr) : (shelly_read_line w (some l)).1 = some l := by
  cases l <;> rfl

theorem read_line_reads (w : World) (l : CStr) :
    readsOf (shelly_read_line w (some l)).2.trace = readsOf w.trace ++ [some l] := by
  cases l with
  | nil => simp [shelly_read_line, World.log, readsOf, List.filterMap_append]
  | cons c cs => simp [shelly_read_line, World.log, readsOf, List.filterMap_append]

theorem loop_body_line (os : OS) (w : World) (l : CStr) :
    loop_body os w (some l) =
      (shelly_split_line os (shelly_read_line w (some l)).2 l).bind
        (fun args w2 => shelly_execute os w2 args) := by
  simp only [loop_body, read_line_fst]

theorem loop_body_steps (os : OS) (w wa w1 : World) (l : CStr) (args : List Slot)
    (status : Int)
    (hs : shelly_split_line os (shelly_read_line w (some l)).2 l = .ret args wa)
    (he : shelly_execute os wa args = .ret status w1) :
    loop_body os w (some l) = .ret status w1 := by
  rw [loop_body_line, hs]
  exact he

theorem step_reads (os : OS) (w wa w1 : World) (l : CStr) (args : List Slot) (status : Int)
    (hs : shelly_split_line os (shelly_read_line w (some l)).2 l = .ret args wa)
    (he : shelly_execute os wa args = .ret status w1) :
    readsOf w1.trace = readsOf w.trace ++ [some l] := by
  have hw := shelly_split_line_world os _ wa l args hs
  subst hw
  rw [shelly_execute_reads os _ w1 args status he, read_line_reads]

theorem iterates_reads (os : OS) (w w1 : World) (ls : List CStr) (hit : Iterates os w ls w1) :
    readsOf w1.trace = readsOf w.trace ++ ls.map some := by
  induction hit with
  | nil w => simp
  | cons w wa w1 w2 l ls args status hs he _ _ ih =>
    rw [ih, step_reads os w wa w1 l args status hs he]
    simp

theorem shelly_loop_cons (os : OS) (w : World) (r : Option CStr) (later : List (Option CStr)) :
    shelly_loop os w (r :: later) =
      (loop_body os w r).bind (fun status w1 =>
        if status ≠ 0 then shelly_loop os w1 later else .ret () w1) := rfl

theorem loop_body_eof (os : OS) (w : World) :
    loop_body os w none =
      .terminated 0 ((w.log (.readline "☀> " none)).log (.stdout "\n")) := rfl

theorem shelly_loop_line (os : OS) (w : World) (l : CStr) (later : List (Option CStr)) :
    shelly_loop os w (some l :: later) =
      (shelly_split_line os (shelly_read_line w (some l)).2 l).bind (fun args wa =>
        (shelly_execute os wa args).bind (fun status w2 =>
          if status ≠ 0 then shelly_loop os w2 later else .ret () w2)) := by
  rw [shelly_loop_cons, loop_body_line]
  cases shelly_split_line os (shelly_read_line w (some l)).2 l <;> rfl

theorem shelly_split_line_nil (os : OS) (w : World)
    (h : os.alloc SHELLY_TOK_BUFSIZE = true) :
    shelly_split_line os w [] = .ret (finalBlock []) w := by
  rw [shelly_split_line, if_pos h]
  rfl

theorem shelly_loop_iterates (os : OS) (w w1 : World) (ls : List CStr)
    (hit : Iterates os w ls w1) (tail : List (Option CStr)) :
    shelly_loop os w (ls.map some ++ tail) = shelly_loop os w1 tail := by
  induction hit with
  | nil w => rfl
  | cons w wa w1 w2 l ls args status hs he hstatus _ ih =>
    rw [List.map_cons, List.cons_append, shelly_loop_line, hs]
    simp only [Outcome.bind, he, hstatus, ne_eq, not_false_eq_true, if_true]
    exact ih

/-- C6. Let the lines `ls` be read, tokenized by `shelly_split_line` and
dispatched by `shelly_execute` on the vector the tokenizer returned, one after
the other, each dispatch returning a non-zero status, taking the state from
`w` to `w1`. Then `shelly_loop`, given these lines followed by anything, is in
state `w1` when it reads what follows, and the reads its trace records since
`w` are exactly the lines `ls` in that order. What the loop does with the next
result is: on end of input it prints a newline and ends the process with
status 0, the tokenizer and the dispatcher not being called for that read,
whatever the system would make them do; on a line it is the tokenizer on that
line followed by the dispatcher on the vector returned, the loop returning
when the status is 0, so that nothing that comes later is read or dispatched
and that line is the last read of the trace, and going on with what comes
later when the status is not 0. With every allocation granted the vector
dispatched holds exactly the tokens of the line. An empty line is not end of
input: once its block is granted it is tokenized into no token, dispatched
with status 1 and no effect but the read, and the loop goes on. -/
theorem shelly_loop_in_order (os : OS) (w w1 : World) (ls : List CStr)
    (later : List (Option CStr)) (hit : Iterates os w ls w1) :
    shelly_loop os w (ls.map some ++ later) = shelly_loop os w1 later ∧
    readsOf w1.trace = readsOf w.trace ++ ls.map some ∧
    shelly_loop os w (ls.map some ++ none :: later) =
      .terminated 0 ((w1.log (.readline "☀> " none)).log (.stdout "\n")) ∧
    (∀ l, shelly_loop os w (ls.map some ++ some l :: later) =
      (shelly_split_line os (shelly_read_line w1 (some l)).2 l).bind (fun args wa =>
        (shelly_execute os wa args).bind (fun status w2 =>
          if status ≠ 0 then shelly_loop os w2 later else .ret () w2))) ∧
    (∀ l args wa w2,
      shelly_split_line os (shelly_read_line w1 (some l)).2 l = .ret args wa →
      shelly_execute os wa args = .ret 0 w2 →
      shelly_loop os w (ls.map some ++ some l :: later) = .ret () w2 ∧
      readsOf w2.trace = readsOf w.trace ++ (ls.map some ++ [some l])) ∧
    (∀ l args wa status w2,
      shelly_split_line os (shelly_read_line w1 (some l)).2 l = .ret args wa →
      shelly_execute os wa args = .ret status w2 → status ≠ 0 →
      shelly_loop os w (ls.map some ++ some l :: later) = shelly_loop os w2 later) ∧
    ((∀ n, os.alloc n = true) → ∀ l, ∃ args,
      shelly_split_line os (shelly_read_line w1 (some l)).2 l =
        .ret args (shelly_read_line w1 (some l)).2 ∧
      readArgv args = some (maximalRuns l) ∧
      shelly_loop os w (ls.map some ++ some l :: later) =
        (shelly_execute os (shelly_read_line w1 (some l)).2 args).bind (fun status w2 =>
          if status ≠ 0 then shelly_loop os w2 later else .ret () w2)) ∧
    (os.alloc SHELLY_TOK_BUFSIZE = true → ∃ args,
      shelly_read_line w1 (some []) = (some [], w1.log (.readline "☀> " (some []))) ∧
      shelly_split_line os (w1.log (.readline "☀> " (some []))) [] =
        .ret args (w1.log (.readline "☀> " (some []))) ∧
      readArgv args = some [] ∧
      shelly_execute os (w1.log (.readline "☀> " (some []))) args =
        .ret 1 (w1.log (.readline "☀> " (some []))) ∧
      shelly_loop os w (ls.map some ++ some [] :: later) =
        shelly_loop os (w1.log (.readline "☀> " (some []))) later) := by
  have hpre := shelly_loop_iterates os w w1 ls hit
  refine ⟨hpre later, iterates_reads os w w1 ls hit, ?_, ?_, ?_, ?_, ?_, ?_⟩
  · rw [hpre, shelly_loop_cons, loop_body_eof]
    rfl
  · intro l
    rw [hpre, shelly_loop_line]
  · intro l args wa w2 hs he
    refine ⟨?_, ?_⟩
    · rw [hpre, shelly_loop_line, hs]
      simp only [Outcome.bind, he]
      rfl
    · rw [step_reads os w1 wa w2 l args 0 hs he, iterates_reads os w w1 ls hit,
        List.append_assoc]
  · intro l args wa status w2 hs he hstatus
    rw [hpre, shelly_loop_line, hs]
    simp only [Outcome.bind, he, hstatus, ne_eq, not_false_eq_true, if_true]
  · intro halloc l
    have hs := split_line_result os halloc (shelly_read_line w1 (some l)).2 l
    refine ⟨_, hs, readArgv_mkArgv _ _, ?_⟩
    rw [hpre, shelly_loop_line, hs]
    rfl
  · intro h64
    have hs := shelly_split_line_nil os (w1.log (.readline "☀> " (some []))) h64
    refine ⟨_, rfl, hs, readArgv_mkArgv _ _, shelly_execute_nil os _ _, ?_⟩
    rw [hpre, shelly_loop_line]
    have hr : (shelly_read_line w1 (some [])).2 = w1.log (.readline "☀> " (some [])) := rfl
    rw [hr, hs]
    simp only [Outcome.bind, finalBlock, shelly_execute_nil]
    rfl

/-- Instance of C6: `hello`, then end of input, then a line that is never read. -/
theorem shelly_loop_in_order_witness :
    Iterates sampleOS sampleWorld [['h', 'e', 'l', 'l', 'o']]
      ⟨['/'], some ['/', 't', 'm', 'p'], 0,
        [.readline "☀> " (some ['h', 'e', 'l', 'l', 'o']), .add_history ['h', 'e', 'l', 'l', 'o'],
          .stdout "Hi! Hope you enjoy this shell.\n"]⟩ ∧
    shelly_loop sampleOS sampleWorld
        [some ['h', 'e', 'l', 'l', 'o'], none, some ['e', 'x', 'i', 't']] =
      .terminated 0 ⟨['/'], some ['/', 't', 'm', 'p'], 0,
        [.readline "☀> " (some ['h', 'e', 'l', 'l', 'o']), .add_history ['h', 'e', 'l', 'l', 'o'],
          .stdout "Hi! Hope you enjoy this shell.\n", .readline "☀> " none, .stdout "\n"]⟩ :=
  ⟨Iterates.cons _ _ _ _ _ _ _ 1 rfl rfl (by decide) (Iterates.nil _),
    (shelly_loop_in_order sampleOS sampleWorld _ [['h', 'e', 'l', 'l', 'o']]
      [some ['e', 'x', 'i', 't']]
      (Iterates.cons _ _ _ _ _ _ _ 1 rfl rfl (by decide) (Iterates.nil _))).2.2.1⟩

end Shelly
